import Mathlib

/-!
Shallow embedding of `ear/fileio/adm/timing_fixes.py`: the three-pass
audioBlockFormat timing-reconciliation pipeline (duration reconciliation,
interpolationLength clamping, and clamping of block times to the spans of
the audioObjects that select them), together with proofs of the specified
properties.

Times are modelled as integers (`Int`); the source works with exact
rational/timestamp values and uses only `+`, `-` and order comparisons, so
every statement proved here depends only on ordered-group arithmetic.
Python's in-place mutation is modelled by state passing; `warnings.warn`
becomes an accumulated list of `Diag` values; `raise ValueError` becomes an
`Option ClampError` carried alongside the state reached when the exception
was thrown (so partially-mutated states are represented faithfully).
-/

/-- One diagnostic, corresponding to one `warnings.warn` call in the source. -/
inductive Diag where
  /-- duration of a block changed by `fix_blockFormat_durations` -/
  | durationChanged (bfId : Nat) (old new : Int)
  /-- interpolationLength contracted by `fix_blockFormat_interpolationLengths` -/
  | interpLenContracted (bfId : Nat) (old new : Int)
  /-- interpolationLength reduced to the object duration
      (`_clamp_blockFormat_interpolationLength`) -/
  | interpLenReducedToObj (bfId objId : Nat)
  /-- rtime delayed by `_clamp_blockFormat_start` -/
  | rtimeDelayed (bfId objId : Nat) (shift : Int)
  /-- end advanced by `_clamp_blockFormat_end` -/
  | endAdvanced (bfId objId : Nat) (shift : Int)
  /-- secondary interpolationLength reduction inside `_clamp_blockFormat_end` -/
  | interpLenReducedSecondary (bfId objId : Nat)
  deriving DecidableEq, Repr

/-- One `raise ValueError` site in the source. -/
inductive ClampError where
  /-- `_clamp_blockFormat_start`: shift would move past the block end -/
  | startAfterBlockEnd (bfId objId : Nat) (shift : Int)
  /-- `_clamp_blockFormat_start`: shift would move past the interpolation end -/
  | startAfterInterpEnd (bfId objId : Nat) (shift : Int)
  /-- `_clamp_blockFormat_end`: shift would move before the block start -/
  | endBeforeBlockStart (bfId objId : Nat) (shift : Int)
  deriving DecidableEq, Repr

/-- The `jumpPosition` sub-record of an `AudioBlockFormatObjects`. -/
structure JumpPosition where
  flag : Bool
  interpolationLength : Option Int
  deriving DecidableEq, Repr

/-- An audioBlockFormat.  `isObjects` records whether the block is of the
`AudioBlockFormatObjects` variant (the only variant carrying a
`jumpPosition`); for other variants the `jumpPosition` field of this record
is ignored by every function below, mirroring the `isinstance` check in
`_has_interpolationLength`. -/
structure BlockFormat where
  id : Nat
  rtime : Option Int
  duration : Option Int
  isObjects : Bool
  jumpPosition : JumpPosition
  deriving DecidableEq, Repr

/-- An audioChannelFormat: an ordered sequence of block formats. -/
structure ChannelFormat where
  audioBlockFormats : List BlockFormat
  deriving DecidableEq, Repr

/-- An audioObject; `start` and `duration` may be unset. -/
structure AudioObject where
  id : Nat
  start : Option Int
  duration : Option Int
  deriving DecidableEq, Repr

/-- An audioObject whose `start` and `duration` are known to be set; the
clamp helpers are only ever invoked on such objects
(`fix_blockFormat_times_for_audioObjects` skips the others). -/
structure ObjSpan where
  id : Nat
  start : Int
  duration : Int
  deriving DecidableEq, Repr

/-- The scene (ADM document restricted to the parts this module reads). -/
structure ADM where
  audioChannelFormats : List ChannelFormat
  audioObjects : List AudioObject
  deriving DecidableEq, Repr

/-- Result of a stateful pass: the state reached, the diagnostics emitted,
and the error that interrupted it, if any.  When `error = some e`, `value`
is the state at the moment the exception was raised (Python's in-place
mutations before the raise are retained). -/
structure PassResult (α : Type) where
  value : α
  diags : List Diag
  error : Option ClampError
  deriving DecidableEq, Repr

/-- `_has_interpolationLength`, returning the interpolationLength value
itself when defined: `some` iff the block is of the Objects variant,
`jumpPosition.flag` is true and `jumpPosition.interpolationLength` is set. -/
def interpLength (bf : BlockFormat) : Option Int :=
  if bf.isObjects && bf.jumpPosition.flag then bf.jumpPosition.interpolationLength
  else none

/-- `_has_interpolationLength` from the source. -/
def hasInterpolationLength (bf : BlockFormat) : Bool :=
  (interpLength bf).isSome

/-- `blockFormat.jumpPosition.interpolationLength = v` -/
def setInterpLength (bf : BlockFormat) (v : Int) : BlockFormat :=
  { bf with jumpPosition := { bf.jumpPosition with interpolationLength := some v } }

/-- The body of the pair loop of `fix_blockFormat_durations`: given a
consecutive pair `(a, b)`, returns the updated `a` and the diagnostics
emitted.  (`b` is read but never written by this iteration.) -/
def fixDurationPair (a b : BlockFormat) : BlockFormat × List Diag :=
  match a.rtime, a.duration, b.rtime, b.duration with
  | some art, some oldDuration, some brt, some _ =>
      let newDuration := brt - art
      if oldDuration ≠ newDuration then
        let a₁ := { a with duration := some newDuration }
        let a₂ :=
          match interpLength a with
          | some il =>
              if oldDuration ≥ il ∧ newDuration < il then setInterpLength a₁ newDuration
              else a₁
          | none => a₁
        (a₂, [Diag.durationChanged a.id oldDuration newDuration])
      else (a, [])
  | _, _, _, _ => (a, [])

/-- The inner loop of `fix_blockFormat_durations` over one channel's block
list: `zip(blockFormat[:-1], blockFormat[1:])`, each iteration updating the
left element of the pair only. -/
def fixDurationsList : List BlockFormat → List BlockFormat × List Diag
  | [] => ([], [])
  | [a] => ([a], [])
  | a :: b :: rest =>
      let r := fixDurationPair a b
      let rr := fixDurationsList (b :: rest)
      (r.1 :: rr.1, r.2 ++ rr.2)

/-- `fix_blockFormat_durations` from the source. -/
def fix_blockFormat_durations (adm : ADM) : ADM × List Diag :=
  let rs := adm.audioChannelFormats.map fun cf => fixDurationsList cf.audioBlockFormats
  ({ adm with audioChannelFormats := rs.map fun r => ⟨r.1⟩ },
   (rs.map fun r => r.2).flatten)

/-- The per-block body of `fix_blockFormat_interpolationLengths`. -/
def fixInterpLenBlock (bf : BlockFormat) : BlockFormat × List Diag :=
  match bf.rtime, bf.duration with
  | some _, some dur =>
      match interpLength bf with
      | some il =>
          if il > dur then
            (setInterpLength bf dur, [Diag.interpLenContracted bf.id il dur])
          else (bf, [])
      | none => (bf, [])
  | _, _ => (bf, [])

/-- `fix_blockFormat_interpolationLengths` from the source. -/
def fix_blockFormat_interpolationLengths (adm : ADM) : ADM × List Diag :=
  let rs := adm.audioChannelFormats.map fun cf =>
    (cf.audioBlockFormats.map fun bf => (fixInterpLenBlock bf).1,
     (cf.audioBlockFormats.map fun bf => (fixInterpLenBlock bf).2).flatten)
  ({ adm with audioChannelFormats := rs.map fun r => ⟨r.1⟩ },
   (rs.map fun r => r.2).flatten)

/-- `_clamp_blockFormat_interpolationLength` from the source (the branch for
blocks with unset timing). -/
def clampInterpLengthOnly (bf : BlockFormat) (obj : ObjSpan) : BlockFormat × List Diag :=
  match interpLength bf with
  | some il =>
      if il > obj.duration then
        (setInterpLength bf obj.duration, [Diag.interpLenReducedToObj bf.id obj.id])
      else (bf, [])
  | none => (bf, [])

/-- `_clamp_blockFormat_start` from the source.  Only ever called on blocks
whose `rtime` and `duration` are both set; on other blocks it is the
identity (that branch is unreachable from `_clamp_blockFormat_times`). -/
def clampStart (bf : BlockFormat) (obj : ObjSpan) : PassResult BlockFormat :=
  match bf.rtime, bf.duration with
  | some rt, some dur =>
      if rt < obj.start then
        let shift := obj.start - rt
        if shift ≥ dur then
          ⟨bf, [], some (ClampError.startAfterBlockEnd bf.id obj.id shift)⟩
        else
          match interpLength bf with
          | some il =>
              if il ≤ shift then
                ⟨bf, [], some (ClampError.startAfterInterpEnd bf.id obj.id shift)⟩
              else
                ⟨setInterpLength
                    { bf with rtime := some (rt + shift), duration := some (dur - shift) }
                    (il - shift),
                 [Diag.rtimeDelayed bf.id obj.id shift], none⟩
          | none =>
              ⟨{ bf with rtime := some (rt + shift), duration := some (dur - shift) },
               [Diag.rtimeDelayed bf.id obj.id shift], none⟩
      else ⟨bf, [], none⟩
  | _, _ => ⟨bf, [], none⟩

/-- `_clamp_blockFormat_end` from the source.  Only ever called on blocks
whose `rtime` and `duration` are both set; on other blocks it is the
identity. -/
def clampEnd (bf : BlockFormat) (obj : ObjSpan) : PassResult BlockFormat :=
  match bf.rtime, bf.duration with
  | some rt, some dur =>
      let blockEnd := rt + dur
      let objectEnd := obj.start + obj.duration
      if blockEnd > objectEnd then
        let shift := blockEnd - objectEnd
        if shift ≥ dur then
          ⟨bf, [], some (ClampError.endBeforeBlockStart bf.id obj.id shift)⟩
        else
          let bf₁ := { bf with duration := some (dur - shift) }
          match interpLength bf₁ with
          | some il =>
              if il > dur - shift then
                ⟨setInterpLength bf₁ (dur - shift),
                 [Diag.endAdvanced bf.id obj.id shift,
                  Diag.interpLenReducedSecondary bf.id obj.id], none⟩
              else ⟨bf₁, [Diag.endAdvanced bf.id obj.id shift], none⟩
          | none => ⟨bf₁, [Diag.endAdvanced bf.id obj.id shift], none⟩
      else ⟨bf, [], none⟩
  | _, _ => ⟨bf, [], none⟩

/-- `_clamp_blockFormat_times` from the source: blocks with unset timing get
only the interpolationLength clamp; fully-timed blocks get the start clamp
then (if it did not raise) the end clamp on the updated block. -/
def clampTimes (bf : BlockFormat) (obj : ObjSpan) : PassResult BlockFormat :=
  match bf.rtime, bf.duration with
  | some _, some _ =>
      let r₁ := clampStart bf obj
      match r₁.error with
      | some e => ⟨r₁.value, r₁.diags, some e⟩
      | none =>
          let r₂ := clampEnd r₁.value obj
          ⟨r₂.value, r₁.diags ++ r₂.diags, r₂.error⟩
  | _, _ =>
      let r := clampInterpLengthOnly bf obj
      ⟨r.1, r.2, none⟩

/-- The block loop of `fix_blockFormat_times_for_audioObjects` over one
channel format: clamp each block in order; an error keeps the mutations made
so far (the failing block itself was not mutated, see `clampStart` /
`clampEnd`) and leaves the rest untouched. -/
def clampBlocks (obj : ObjSpan) : List BlockFormat → PassResult (List BlockFormat)
  | [] => ⟨[], [], none⟩
  | bf :: rest =>
      let r := clampTimes bf obj
      match r.error with
      | some e => ⟨r.value :: rest, r.diags, some e⟩
      | none =>
          let rr := clampBlocks obj rest
          ⟨r.value :: rr.value, r.diags ++ rr.diags, rr.error⟩

/-- Clamp every block of the channel format at index `i` against `obj`,
leaving the other channel formats untouched. -/
def clampChannelAt (obj : ObjSpan) (cfs : List ChannelFormat) (i : Nat) :
    PassResult (List ChannelFormat) :=
  match cfs[i]? with
  | some cf =>
      let r := clampBlocks obj cf.audioBlockFormats
      ⟨cfs.set i ⟨r.value⟩, r.diags, r.error⟩
  | none => ⟨cfs, [], none⟩

/-- Clamp, in order, every channel format selected by one object. -/
def processChans (obj : ObjSpan) (cfs : List ChannelFormat) :
    List Nat → PassResult (List ChannelFormat)
  | [] => ⟨cfs, [], none⟩
  | i :: rest =>
      let r := clampChannelAt obj cfs i
      match r.error with
      | some e => ⟨r.value, r.diags, some e⟩
      | none =>
          let rr := processChans obj r.value rest
          ⟨rr.value, r.diags ++ rr.diags, rr.error⟩

/-- The per-object body of `fix_blockFormat_times_for_audioObjects`: objects
with unset `start` or `duration` are skipped. -/
def processObject (cfs : List ChannelFormat) (obj : AudioObject) (chans : List Nat) :
    PassResult (List ChannelFormat) :=
  match obj.start, obj.duration with
  | some s, some d => processChans ⟨obj.id, s, d⟩ cfs chans
  | _, _ => ⟨cfs, [], none⟩

/-- The object loop of `fix_blockFormat_times_for_audioObjects`; the `Nat`
argument is the index of the first object of the list within the scene's
object sequence (used to look up its channel selection). -/
def processObjects (sel : Nat → List Nat) :
    List AudioObject → Nat → List ChannelFormat → PassResult (List ChannelFormat)
  | [], _, cfs => ⟨cfs, [], none⟩
  | obj :: rest, i, cfs =>
      let r := processObject cfs obj (sel i)
      match r.error with
      | some e => ⟨r.value, r.diags, some e⟩
      | none =>
          let rr := processObjects sel rest (i + 1) r.value
          ⟨rr.value, r.diags ++ rr.diags, rr.error⟩

/-- `fix_blockFormat_times_for_audioObjects` from the source.

Modelled from the spec: the external pack-allocation subsystem
(`_PackAllocator` / `_ItemSelectionState` of `ear.core.select_items`, not
part of this module's source) is abstracted, per §6 of the spec, as an
opaque object→channel mapping `sel`, giving for the object at index `i` of
`adm.audioObjects` the indices into `adm.audioChannelFormats` of the channel
formats appearing in the `channel_allocation` of the selection states it
resolves to (track specs are unused here). -/
def fix_blockFormat_times_for_audioObjects (sel : Nat → List Nat) (adm : ADM) :
    PassResult ADM :=
  let r := processObjects sel adm.audioObjects 0 adm.audioChannelFormats
  ⟨{ adm with audioChannelFormats := r.value }, r.diags, r.error⟩

/-- `fix_blockFormat_timings` from the source: the three passes in their
fixed order, each run exactly once. -/
def fix_blockFormat_timings (sel : Nat → List Nat) (adm : ADM) : PassResult ADM :=
  let p₁ := fix_blockFormat_durations adm
  let p₂ := fix_blockFormat_interpolationLengths p₁.1
  let p₃ := fix_blockFormat_times_for_audioObjects sel p₂.1
  ⟨p₃.value, p₁.2 ++ p₂.2 ++ p₃.diags, p₃.error⟩

/-! ### Basic field lemmas -/

@[simp] theorem setInterpLength_rtime (bf : BlockFormat) (v : Int) :
    (setInterpLength bf v).rtime = bf.rtime := rfl

@[simp] theorem setInterpLength_duration (bf : BlockFormat) (v : Int) :
    (setInterpLength bf v).duration = bf.duration := rfl

@[simp] theorem setInterpLength_id (bf : BlockFormat) (v : Int) :
    (setInterpLength bf v).id = bf.id := rfl

@[simp] theorem setInterpLength_isObjects (bf : BlockFormat) (v : Int) :
    (setInterpLength bf v).isObjects = bf.isObjects := rfl

@[simp] theorem setInterpLength_flag (bf : BlockFormat) (v : Int) :
    (setInterpLength bf v).jumpPosition.flag = bf.jumpPosition.flag := rfl

theorem interpLength_setInterpLength (bf : BlockFormat) (v : Int) :
    interpLength (setInterpLength bf v) =
      if bf.isObjects && bf.jumpPosition.flag then some v else none := rfl

theorem interpLength_setInterpLength_of_isSome (bf : BlockFormat) (v : Int)
    (h : (interpLength bf).isSome) :
    interpLength (setInterpLength bf v) = some v := by
  unfold interpLength at h ⊢
  by_cases hb : bf.isObjects && bf.jumpPosition.flag <;> simp [setInterpLength, hb] at h ⊢

/-! ### Timing predicates -/

/-- The `rtime` of a block, defaulting to `0` when unset. -/
def rtimeD (bf : BlockFormat) : Int := bf.rtime.getD 0

/-- The `duration` of a block, defaulting to `0` when unset. -/
def durationD (bf : BlockFormat) : Int := bf.duration.getD 0

/-- Are `rtime` and `duration` of both blocks of a pair set? -/
def pairFullyTimed (a b : BlockFormat) : Bool :=
  a.rtime.isSome && a.duration.isSome && b.rtime.isSome && b.duration.isSome

/-- Contiguity of a consecutive block pair: when the pair is fully timed,
the rtime of the second equals the end of the first. -/
def Contiguous (a b : BlockFormat) : Prop :=
  pairFullyTimed a b = true → b.rtime = some (rtimeD a + durationD a)

instance (a b : BlockFormat) : Decidable (Contiguous a b) := by
  unfold Contiguous; infer_instance

/-! ### Duration reconciliation: contiguity (C1) -/

theorem fixDurationPair_rtime (a b : BlockFormat) :
    (fixDurationPair a b).1.rtime = a.rtime := by
  unfold fixDurationPair
  repeat' split
  all_goals try rfl
  all_goals (dsimp only; split_ifs <;> rfl)

theorem fixDurationPair_id (a b : BlockFormat) :
    (fixDurationPair a b).1.id = a.id := by
  unfold fixDurationPair
  repeat' split
  all_goals try rfl
  all_goals (dsimp only; split_ifs <;> rfl)

theorem fixDurationPair_duration_isSome (a b : BlockFormat) :
    (fixDurationPair a b).1.duration.isSome = a.duration.isSome := by
  unfold fixDurationPair
  repeat' split
  all_goals simp_all
  all_goals (split_ifs <;> simp_all)

theorem fixDurationPair_duration (a b : BlockFormat) (art ad brt : Int)
    (ha : a.rtime = some art) (had : a.duration = some ad)
    (hb : b.rtime = some brt) (hbd : b.duration.isSome = true) :
    (fixDurationPair a b).1.duration = some (brt - art) := by
  obtain ⟨bd, hbd⟩ := Option.isSome_iff_exists.mp hbd
  simp only [fixDurationPair, ha, had, hb, hbd]
  by_cases h : ad = brt - art
  · rw [if_neg (by simpa using h), had, h]
  · rw [if_pos (by simpa using h)]
    split
    · split <;> rfl
    · rfl

/-- The updated block list of `fixDurationsList`. -/
def blocksAfterDur (bs : List BlockFormat) : List BlockFormat :=
  (fixDurationsList bs).1

theorem blocksAfterDur_nil : blocksAfterDur [] = [] := rfl

theorem blocksAfterDur_single (a : BlockFormat) : blocksAfterDur [a] = [a] := rfl

theorem blocksAfterDur_cons₂ (a b : BlockFormat) (rest : List BlockFormat) :
    blocksAfterDur (a :: b :: rest) =
      (fixDurationPair a b).1 :: blocksAfterDur (b :: rest) := rfl

/-- The first element of the result of `fixDurationsList` on a non-empty
list keeps the rtime and duration-definedness of the original first
element. -/
theorem blocksAfterDur_head (x : BlockFormat) (xs : List BlockFormat) :
    ∃ h t, blocksAfterDur (x :: xs) = h :: t ∧ h.rtime = x.rtime ∧
      h.duration.isSome = x.duration.isSome := by
  cases xs with
  | nil => exact ⟨x, [], rfl, rfl, rfl⟩
  | cons y ys =>
      exact ⟨(fixDurationPair x y).1, blocksAfterDur (y :: ys), rfl,
        fixDurationPair_rtime x y, fixDurationPair_duration_isSome x y⟩

/-- Contiguity holds between all consecutive pairs after duration
reconciliation of one channel. -/
theorem blocksAfterDur_chain (bs : List BlockFormat) :
    List.Chain' Contiguous (blocksAfterDur bs) := by
  induction bs with
  | nil => simp [blocksAfterDur_nil]
  | cons a tail ih =>
      cases tail with
      | nil => simp [blocksAfterDur_single]
      | cons b rest =>
          rw [blocksAfterDur_cons₂]
          obtain ⟨h, t, heq, hrt, hds⟩ := blocksAfterDur_head b rest
          rw [heq] at ih ⊢
          refine List.chain'_cons.mpr ⟨?_, ih⟩
          intro hft
          simp only [pairFullyTimed, Bool.and_eq_true] at hft
          obtain ⟨⟨⟨ha1, ha2⟩, hh1⟩, hh2⟩ := hft
          rw [fixDurationPair_rtime] at ha1
          rw [fixDurationPair_duration_isSome] at ha2
          obtain ⟨art, hart⟩ := Option.isSome_iff_exists.mp ha1
          obtain ⟨ad, had⟩ := Option.isSome_iff_exists.mp ha2
          have hbrt1 : b.rtime.isSome := by rw [← hrt]; exact hh1
          obtain ⟨brt, hbrt⟩ := Option.isSome_iff_exists.mp hbrt1
          have hbd : b.duration.isSome = true := by rw [← hds]; exact hh2
          have hdur := fixDurationPair_duration a b art ad brt hart had hbrt hbd
          rw [hrt, hbrt]
          unfold rtimeD durationD
          rw [fixDurationPair_rtime, hart, hdur]
          simp only [Option.getD_some, Option.some.injEq]
          omega

/-- The last block of a channel is untouched by duration reconciliation. -/
theorem blocksAfterDur_getLast? (bs : List BlockFormat) :
    (blocksAfterDur bs).getLast? = bs.getLast? := by
  induction bs with
  | nil => rfl
  | cons a tail ih =>
      cases tail with
      | nil => rfl
      | cons b rest =>
          rw [blocksAfterDur_cons₂]
          obtain ⟨h, t, heq, _, _⟩ := blocksAfterDur_head b rest
          rw [heq]
          rw [heq] at ih
          rw [List.getLast?_cons_cons, ih, List.getLast?_cons_cons]

theorem mapBlocksGetLast (cfs : List ChannelFormat) :
    (((cfs.map fun cf => fixDurationsList cf.audioBlockFormats).map
        fun r => (⟨r.1⟩ : ChannelFormat)).map fun cf => cf.audioBlockFormats.getLast?)
      = cfs.map fun cf => cf.audioBlockFormats.getLast? := by
  induction cfs with
  | nil => rfl
  | cons c t ih =>
      simp only [List.map_cons, ih, List.cons.injEq, and_true]
      exact blocksAfterDur_getLast? c.audioBlockFormats

/-- C1: after `fix_blockFormat_durations`, every channel format's block
sequence is contiguous on its fully-timed consecutive pairs
(`b.rtime == a.rtime + a.duration`), and the last block of each channel is
unchanged by the pass. -/
theorem c1_durations_contiguity_and_last (adm : ADM) :
    (∀ cf ∈ (fix_blockFormat_durations adm).1.audioChannelFormats,
        List.Chain' Contiguous cf.audioBlockFormats)
    ∧ (fix_blockFormat_durations adm).1.audioChannelFormats.map
          (fun cf => cf.audioBlockFormats.getLast?)
        = adm.audioChannelFormats.map (fun cf => cf.audioBlockFormats.getLast?) := by
  constructor
  · intro cf hcf
    simp only [fix_blockFormat_durations, List.map_map, List.mem_map] at hcf
    obtain ⟨cf₀, _, rfl⟩ := hcf
    exact blocksAfterDur_chain cf₀.audioBlockFormats
  · exact mapBlocksGetLast adm.audioChannelFormats

def c1wBlockA : BlockFormat := ⟨1, some 0, some 3, false, ⟨false, none⟩⟩
def c1wBlockB : BlockFormat := ⟨2, some 5, some 2, false, ⟨false, none⟩⟩
def c1wADM : ADM := ⟨[⟨[c1wBlockA, c1wBlockB]⟩], []⟩
def c1wBlockA2 : BlockFormat := ⟨1, some 0, some 5, false, ⟨false, none⟩⟩

/-- Witness for C1 at a concrete scene (the spec's gap-closing scenario). -/
theorem c1_witness :
    List.Chain' Contiguous (ChannelFormat.mk [c1wBlockA2, c1wBlockB]).audioBlockFormats ∧
      (fix_blockFormat_durations c1wADM).1.audioChannelFormats.map
          (fun cf => cf.audioBlockFormats.getLast?)
        = c1wADM.audioChannelFormats.map (fun cf => cf.audioBlockFormats.getLast?) := by
  have h := c1_durations_contiguity_and_last c1wADM
  exact ⟨h.1 ⟨[c1wBlockA2, c1wBlockB]⟩ (by decide), h.2⟩

/-! ### Duration reconciliation: interpolationLength side effect (C6) -/

/-- Does shrinking the duration of `a` from its current value to
`newDuration` force the silent interpolationLength correction? -/
def ilShrinkTriggered (a : BlockFormat) (newDuration : Int) : Bool :=
  match interpLength a with
  | some il => decide (durationD a ≥ il) && decide (newDuration < il)
  | none => false

theorem fixDurationPair_skip (a b : BlockFormat) (h : pairFullyTimed a b = false) :
    fixDurationPair a b = (a, []) := by
  unfold fixDurationPair
  rcases ha : a.rtime <;> rcases had : a.duration <;> rcases hb : b.rtime <;>
    rcases hbd : b.duration <;> simp_all [pairFullyTimed]

/-- C6: one pair step of the Duration Reconciler rewrites the
interpolationLength to the new duration exactly when the pair is fully
timed, the duration changes, the block has an interpolation length and
`old_duration >= interpolationLength > new_duration`; in every other case
the stored interpolationLength is untouched.  The emitted diagnostics are
exactly the single duration-change diagnostic (no separate one for the
interpolation correction). -/
theorem c6_duration_reconciler_interp_side_effect (a b : BlockFormat) :
    ((fixDurationPair a b).1.jumpPosition.interpolationLength =
      if pairFullyTimed a b && decide (durationD a ≠ rtimeD b - rtimeD a)
          && ilShrinkTriggered a (rtimeD b - rtimeD a)
      then some (rtimeD b - rtimeD a)
      else a.jumpPosition.interpolationLength)
    ∧ (fixDurationPair a b).1.jumpPosition.flag = a.jumpPosition.flag
    ∧ ((fixDurationPair a b).2 =
      if pairFullyTimed a b && decide (durationD a ≠ rtimeD b - rtimeD a)
      then [Diag.durationChanged a.id (durationD a) (rtimeD b - rtimeD a)]
      else []) := by
  by_cases hft : pairFullyTimed a b
  · obtain ⟨⟨⟨h1, h2⟩, h3⟩, h4⟩ :
        ((a.rtime.isSome ∧ a.duration.isSome) ∧ b.rtime.isSome) ∧ b.duration.isSome := by
      simpa [pairFullyTimed, Bool.and_eq_true] using hft
    obtain ⟨art, ha⟩ := Option.isSome_iff_exists.mp h1
    obtain ⟨ad, had⟩ := Option.isSome_iff_exists.mp h2
    obtain ⟨brt, hb⟩ := Option.isSome_iff_exists.mp h3
    obtain ⟨bd, hbd⟩ := Option.isSome_iff_exists.mp h4
    simp only [fixDurationPair, rtimeD, durationD, ilShrinkTriggered, hft,
      ha, had, hb, hbd, Option.getD_some, Bool.true_and]
    rcases hil : interpLength a with _ | il
    · by_cases hch : ad = brt - art
      · simp [hch]
      · simp [hch]
    · by_cases hch : ad = brt - art
      · simp [hch]
      · by_cases hge : ad ≥ il
        · by_cases hlt : brt - art < il
          · simp [hch, hge, hlt, setInterpLength]
          · simp [hch, hge, hlt]
        · have hnot : ¬(ad ≥ il ∧ brt - art < il) := fun hc => hge hc.1
          simp [hch, hge, hnot]
  · have hft2 : pairFullyTimed a b = false := by simpa using hft
    rw [fixDurationPair_skip a b hft2]
    simp [hft2]

/-! ### Interpolation clamp (C5) -/

theorem fixInterpLenBlock_rtime (bf : BlockFormat) :
    (fixInterpLenBlock bf).1.rtime = bf.rtime := by
  unfold fixInterpLenBlock
  repeat' split
  all_goals rfl

theorem fixInterpLenBlock_duration (bf : BlockFormat) :
    (fixInterpLenBlock bf).1.duration = bf.duration := by
  unfold fixInterpLenBlock
  repeat' split
  all_goals rfl

/-- After the interpolation clamp, a block whose `rtime` and `duration` are
both set has its interpolationLength (when defined) bounded by its
duration. -/
theorem fixInterpLenBlock_bounded (bf : BlockFormat) (dur il : Int)
    (hrt : (fixInterpLenBlock bf).1.rtime.isSome)
    (hd : (fixInterpLenBlock bf).1.duration = some dur)
    (hil : interpLength (fixInterpLenBlock bf).1 = some il) : il ≤ dur := by
  rw [fixInterpLenBlock_rtime] at hrt
  rw [fixInterpLenBlock_duration] at hd
  obtain ⟨rt, hrt⟩ := Option.isSome_iff_exists.mp hrt
  unfold fixInterpLenBlock at hil
  rw [hrt, hd] at hil
  rcases hil0 : interpLength bf with _ | il0 <;> rw [hil0] at hil <;>
    try dsimp only at hil
  · rw [hil0] at hil
    exact absurd hil (by simp)
  · by_cases hgt : il0 > dur
    · rw [if_pos hgt,
        interpLength_setInterpLength_of_isSome bf dur (by simp [hil0])] at hil
      obtain rfl : dur = il := by simpa using hil
      exact le_refl _
    · rw [if_neg hgt, hil0] at hil
      obtain rfl : il0 = il := by simpa using hil
      exact not_lt.mp hgt

def c5Block : BlockFormat := ⟨1, none, some 1, true, ⟨true, some 2⟩⟩
def c5ADM : ADM := ⟨[⟨[c5Block]⟩], []⟩

/-- Counterexample to C5 as stated: a block with unset `rtime`, defined
duration 1 and defined interpolationLength 2 is skipped by
`fix_blockFormat_interpolationLengths` (the pass requires `rtime` to be set
too), so after the pass the scene still contains a block with defined
duration and interpolationLength where `interpolationLength > duration`. -/
theorem c5_counterexample :
    (fix_blockFormat_interpolationLengths c5ADM).1 = c5ADM
    ∧ c5Block.duration = some 1 ∧ interpLength c5Block = some 2
    ∧ ¬((2 : Int) ≤ 1) := by decide

/-- C5 (amended): after `fix_blockFormat_interpolationLengths`, every block
with defined `rtime` AND `duration` and a defined interpolation length
satisfies `interpolationLength <= duration`. -/
theorem c5_interp_clamp_bounded_amended (adm : ADM) :
    ∀ cf ∈ (fix_blockFormat_interpolationLengths adm).1.audioChannelFormats,
      ∀ bf ∈ cf.audioBlockFormats, bf.rtime.isSome →
        ∀ dur il, bf.duration = some dur → interpLength bf = some il → il ≤ dur := by
  intro cf hcf bf hbf hrt dur il hd hil
  simp only [fix_blockFormat_interpolationLengths, List.map_map, List.mem_map] at hcf
  obtain ⟨cf₀, _, rfl⟩ := hcf
  simp only [Function.comp, List.mem_map] at hbf
  obtain ⟨bf₀, _, rfl⟩ := hbf
  exact fixInterpLenBlock_bounded bf₀ dur il hrt hd hil

def c5wBlock : BlockFormat := ⟨1, some 0, some 3, true, ⟨true, some 7⟩⟩
def c5wADM : ADM := ⟨[⟨[c5wBlock]⟩], []⟩

/-- Witness for the amended C5 at a concrete scene: interpolationLength 7
is clamped to the duration 3. -/
theorem c5_witness : ((7 : Int) > 3) ∧ (3 : Int) ≤ 3 := by
  refine ⟨by norm_num, ?_⟩
  refine c5_interp_clamp_bounded_amended c5wADM ⟨[⟨1, some 0, some 3, true, ⟨true, some 3⟩⟩]⟩
    (by decide) ⟨1, some 0, some 3, true, ⟨true, some 3⟩⟩ (by decide) (by decide) 3 3 rfl (by decide)

/-! ### Start clamp (C2) -/

/-- C2: for a fully-timed block with `rtime < object.start`, the start clamp
(with `shift = object.start - rtime`) raises an error iff `shift >= duration`
or a defined interpolationLength is `<= shift`; otherwise it delays `rtime`
by `shift`, shrinks `duration` by `shift`, shrinks a defined
interpolationLength by `shift`, leaves every other field alone, and emits
exactly one diagnostic. -/
theorem c2_start_clamp (bf : BlockFormat) (obj : ObjSpan) (rt dur : Int)
    (hrt : bf.rtime = some rt) (hd : bf.duration = some dur)
    (hlt : rt < obj.start) :
    ((clampStart bf obj).error.isSome ↔
      (obj.start - rt ≥ dur ∨ ∃ il, interpLength bf = some il ∧ il ≤ obj.start - rt))
    ∧ ((clampStart bf obj).error = none →
        (clampStart bf obj).value.rtime = some (rt + (obj.start - rt))
        ∧ (clampStart bf obj).value.duration = some (dur - (obj.start - rt))
        ∧ (clampStart bf obj).value.id = bf.id
        ∧ (clampStart bf obj).value.isObjects = bf.isObjects
        ∧ (clampStart bf obj).value.jumpPosition.flag = bf.jumpPosition.flag
        ∧ (clampStart bf obj).value.jumpPosition.interpolationLength
            = (match interpLength bf with
               | some il => some (il - (obj.start - rt))
               | none => bf.jumpPosition.interpolationLength)
        ∧ (clampStart bf obj).diags = [Diag.rtimeDelayed bf.id obj.id (obj.start - rt)]) := by
  simp only [clampStart, hrt, hd]
  rw [if_pos hlt]
  by_cases hsh : obj.start - rt ≥ dur
  · rw [if_pos hsh]
    exact ⟨by simp [hsh], fun h => absurd h (by simp)⟩
  · rw [if_neg hsh]
    rcases hil : interpLength bf with _ | il <;> dsimp only
    · exact ⟨by simp [hsh], fun _ => ⟨rfl, rfl, rfl, rfl, rfl, rfl, rfl⟩⟩
    · by_cases hle : il ≤ obj.start - rt
      · rw [if_pos hle]
        refine ⟨?_, fun h => absurd h (by simp)⟩
        simp only [Option.isSome_some, true_iff]
        exact Or.inr ⟨il, rfl, hle⟩
      · rw [if_neg hle]
        exact ⟨by simp [hsh, hle], fun _ => ⟨rfl, rfl, rfl, rfl, rfl, rfl, rfl⟩⟩

def c2wBlock : BlockFormat := ⟨1, some 0, some 5, true, ⟨true, some 4⟩⟩
def c2wObj : ObjSpan := ⟨9, 2, 100⟩

/-- Witness for C2 at a concrete input: block (rtime 0, duration 5,
interpolationLength 4) clamped into object [2, 102) is delayed by 2. -/
theorem c2_witness :
    (clampStart c2wBlock c2wObj).value.rtime = some (0 + ((2 : Int) - 0))
    ∧ (clampStart c2wBlock c2wObj).value.duration = some (5 - ((2 : Int) - 0))
    ∧ (clampStart c2wBlock c2wObj).diags = [Diag.rtimeDelayed 1 9 (2 - 0)] := by
  have h := (c2_start_clamp c2wBlock c2wObj 0 5 rfl rfl (by decide)).2 (by decide)
  exact ⟨h.1, h.2.1, h.2.2.2.2.2.2⟩

/-! ### End clamp (C3) -/

/-- Is the interpolationLength of `bf` defined and greater than `d`? -/
def ilExceeds (bf : BlockFormat) (d : Int) : Bool :=
  match interpLength bf with
  | some il => decide (il > d)
  | none => false

/-- C3: for a fully-timed block whose end `rtime + duration` exceeds the
object end (with `shift` the excess), the end clamp raises an error iff
`shift >= duration`; otherwise it shrinks `duration` by `shift`, leaves
`rtime` and the other fields alone, and, exactly when a defined
interpolationLength exceeds the new duration, reduces it to the new
duration with a second diagnostic. -/
theorem c3_end_clamp (bf : BlockFormat) (obj : ObjSpan) (rt dur : Int)
    (hrt : bf.rtime = some rt) (hd : bf.duration = some dur)
    (hgt : rt + dur > obj.start + obj.duration) :
    ((clampEnd bf obj).error.isSome ↔ rt + dur - (obj.start + obj.duration) ≥ dur)
    ∧ ((clampEnd bf obj).error = none →
        (clampEnd bf obj).value.rtime = some rt
        ∧ (clampEnd bf obj).value.duration
            = some (dur - (rt + dur - (obj.start + obj.duration)))
        ∧ (clampEnd bf obj).value.id = bf.id
        ∧ (clampEnd bf obj).value.isObjects = bf.isObjects
        ∧ (clampEnd bf obj).value.jumpPosition.flag = bf.jumpPosition.flag
        ∧ (clampEnd bf obj).value.jumpPosition.interpolationLength
            = (if ilExceeds bf (dur - (rt + dur - (obj.start + obj.duration)))
               then some (dur - (rt + dur - (obj.start + obj.duration)))
               else bf.jumpPosition.interpolationLength)
        ∧ (clampEnd bf obj).diags
            = (if ilExceeds bf (dur - (rt + dur - (obj.start + obj.duration)))
               then [Diag.endAdvanced bf.id obj.id (rt + dur - (obj.start + obj.duration)),
                     Diag.interpLenReducedSecondary bf.id obj.id]
               else [Diag.endAdvanced bf.id obj.id (rt + dur - (obj.start + obj.duration))])) := by
  simp only [clampEnd, hrt, hd, ilExceeds]
  rw [if_pos hgt]
  by_cases hsh : rt + dur - (obj.start + obj.duration) ≥ dur
  · rw [if_pos hsh]
    exact ⟨by simp [hsh], fun h => absurd h (by simp)⟩
  · rw [if_neg hsh]
    rcases hil : interpLength
        { id := bf.id, rtime := some rt,
          duration := some (dur - (rt + dur - (obj.start + obj.duration))),
          isObjects := bf.isObjects, jumpPosition := bf.jumpPosition } with _ | il <;>
      dsimp only
    · have hbf : interpLength bf = none := hil
      simp only [hbf, Bool.false_eq_true, if_false]
      exact ⟨by simp [hsh], fun _ => by simp⟩
    · have hbf : interpLength bf = some il := hil
      simp only [hbf, decide_eq_true_eq]
      by_cases hex : il > dur - (rt + dur - (obj.start + obj.duration))
      · simp only [if_pos hex]
        exact ⟨by simp [hsh], fun _ => by simp [setInterpLength]⟩
      · simp only [if_neg hex]
        exact ⟨by simp [hsh], fun _ => by simp⟩

def c3wBlock : BlockFormat := ⟨1, some 0, some 10, true, ⟨true, some 9⟩⟩
def c3wObj : ObjSpan := ⟨9, 0, 6⟩

/-- Witness for C3 at a concrete input (the spec's end-clamp scenario):
block (rtime 0, duration 10, interpolationLength 9) against object [0, 6)
is shrunk to duration 6 with a secondary interpolationLength reduction. -/
theorem c3_witness :
    (clampEnd c3wBlock c3wObj).value.duration
      = some (10 - ((0 : Int) + 10 - (0 + 6)))
    ∧ (clampEnd c3wBlock c3wObj).diags
      = [Diag.endAdvanced 1 9 ((0 : Int) + 10 - (0 + 6)),
         Diag.interpLenReducedSecondary 1 9] := by
  have h := (c3_end_clamp c3wBlock c3wObj 0 10 rfl rfl (by decide)).2 (by decide)
  refine ⟨h.2.1, ?_⟩
  rw [h.2.2.2.2.2.2]
  decide

/-! ### Error atomicity of the two clamps (C10) -/

theorem clampStart_err_id (bf : BlockFormat) (obj : ObjSpan) :
    (clampStart bf obj).error = none
    ∨ clampStart bf obj = ⟨bf, [], (clampStart bf obj).error⟩ := by
  unfold clampStart
  repeat' split
  all_goals (try dsimp only)
  all_goals ((try split_ifs) <;> simp)

theorem clampEnd_err_id (bf : BlockFormat) (obj : ObjSpan) :
    (clampEnd bf obj).error = none
    ∨ clampEnd bf obj = ⟨bf, [], (clampEnd bf obj).error⟩ := by
  unfold clampEnd
  repeat' split
  all_goals (try dsimp only)
  all_goals (try split_ifs)
  all_goals (repeat' split)
  all_goals simp

/-- C10: whenever `_clamp_blockFormat_start` or `_clamp_blockFormat_end`
raises, the block passed to that clamp is left exactly as it was and no
diagnostic is emitted by that clamp (the error branches precede every
mutation). -/
theorem c10_clamp_error_atomicity (bf : BlockFormat) (obj : ObjSpan) :
    ((clampStart bf obj).error.isSome →
      (clampStart bf obj).value = bf ∧ (clampStart bf obj).diags = [])
    ∧ ((clampEnd bf obj).error.isSome →
      (clampEnd bf obj).value = bf ∧ (clampEnd bf obj).diags = []) := by
  constructor <;> intro herr
  · rcases clampStart_err_id bf obj with h | h
    · rw [h] at herr
      exact absurd herr (by simp)
    · exact ⟨by rw [h], by rw [h]⟩
  · rcases clampEnd_err_id bf obj with h | h
    · rw [h] at herr
      exact absurd herr (by simp)
    · exact ⟨by rw [h], by rw [h]⟩

def c10wBlockS : BlockFormat := ⟨1, some 0, some 2, false, ⟨false, none⟩⟩
def c10wObjS : ObjSpan := ⟨9, 5, 10⟩
def c10wBlockE : BlockFormat := ⟨2, some 0, some 2, false, ⟨false, none⟩⟩
def c10wObjE : ObjSpan := ⟨9, 0, 0⟩

/-- Witness for C10: a start clamp that fails (required shift 5 ≥ duration
2, the spec's fatal-shift scenario) and an end clamp that fails (shift 2 ≥
duration 2), both leaving their block untouched. -/
theorem c10_witness :
    (clampStart c10wBlockS c10wObjS).error.isSome
    ∧ (clampStart c10wBlockS c10wObjS).value = c10wBlockS
    ∧ (clampEnd c10wBlockE c10wObjE).error.isSome
    ∧ (clampEnd c10wBlockE c10wObjE).value = c10wBlockE := by
  refine ⟨by decide, ?_, by decide, ?_⟩
  · exact ((c10_clamp_error_atomicity c10wBlockS c10wObjS).1 (by decide)).1
  · exact ((c10_clamp_error_atomicity c10wBlockE c10wObjE).2 (by decide)).1

/-! ### Clamping of blocks with unset timing (C8) -/

theorem clampInterpLengthOnly_rtime (bf : BlockFormat) (obj : ObjSpan) :
    (clampInterpLengthOnly bf obj).1.rtime = bf.rtime := by
  unfold clampInterpLengthOnly
  repeat' split
  all_goals rfl

theorem clampInterpLengthOnly_duration (bf : BlockFormat) (obj : ObjSpan) :
    (clampInterpLengthOnly bf obj).1.duration = bf.duration := by
  unfold clampInterpLengthOnly
  repeat' split
  all_goals rfl

/-- `_clamp_blockFormat_times` on a block with unset timing only runs the
interpolationLength clamp. -/
theorem clampTimes_unset (bf : BlockFormat) (obj : ObjSpan)
    (h : bf.rtime = none ∨ bf.duration = none) :
    clampTimes bf obj
      = ⟨(clampInterpLengthOnly bf obj).1, (clampInterpLengthOnly bf obj).2, none⟩ := by
  rcases hr : bf.rtime with _ | rt <;> rcases hdu : bf.duration with _ | du <;>
    simp only [clampTimes, hr, hdu]
  exfalso
  rcases h with h | h
  · rw [hr] at h
    exact absurd h (by simp)
  · rw [hdu] at h
    exact absurd h (by simp)

/-- C8: a block with unset `rtime` or `duration` clamped against an object
never errors, keeps its `rtime` and `duration`, and has its
interpolationLength reduced to the object duration (with one diagnostic)
exactly when it is defined and greater. -/
theorem c8_unset_timing_clamp (bf : BlockFormat) (obj : ObjSpan)
    (h : bf.rtime = none ∨ bf.duration = none) :
    (clampTimes bf obj).error = none
    ∧ (clampTimes bf obj).value.rtime = bf.rtime
    ∧ (clampTimes bf obj).value.duration = bf.duration
    ∧ clampTimes bf obj
        = (if ilExceeds bf obj.duration
           then ⟨setInterpLength bf obj.duration,
                 [Diag.interpLenReducedToObj bf.id obj.id], none⟩
           else ⟨bf, [], none⟩) := by
  rw [clampTimes_unset bf obj h]
  refine ⟨rfl, clampInterpLengthOnly_rtime bf obj, clampInterpLengthOnly_duration bf obj, ?_⟩
  unfold clampInterpLengthOnly ilExceeds
  rcases hil : interpLength bf with _ | il <;> dsimp only
  · simp
  · by_cases hgt : il > obj.duration
    · rw [if_pos hgt]
      simp [hgt]
    · rw [if_neg hgt]
      simp [hgt]

def c8wBlock : BlockFormat := ⟨1, none, some 4, true, ⟨true, some 9⟩⟩
def c8wObj : ObjSpan := ⟨9, 0, 6⟩

/-- Witness for C8: a block with unset rtime and interpolationLength 9
against an object of duration 6 gets interpolationLength 6, nothing else. -/
theorem c8_witness :
    (clampTimes c8wBlock c8wObj).error = none
    ∧ (clampTimes c8wBlock c8wObj).value.rtime = c8wBlock.rtime
    ∧ (clampTimes c8wBlock c8wObj).value.duration = c8wBlock.duration := by
  have h := c8_unset_timing_clamp c8wBlock c8wObj (Or.inl rfl)
  exact ⟨h.1, h.2.1, h.2.2.1⟩

/-! ### Pipeline orchestration (C9) -/

/-- C9: the entry point runs exactly one pass of each reconciler, in the
fixed order durations → interpolationLengths → object containment, with no
iteration: its result is literally the composition of the three passes,
with the diagnostics concatenated in pass order. -/
theorem c9_pipeline_order (sel : Nat → List Nat) (adm : ADM) :
    fix_blockFormat_timings sel adm =
      ⟨(fix_blockFormat_times_for_audioObjects sel
          (fix_blockFormat_interpolationLengths (fix_blockFormat_durations adm).1).1).value,
       (fix_blockFormat_durations adm).2
         ++ (fix_blockFormat_interpolationLengths (fix_blockFormat_durations adm).1).2
         ++ (fix_blockFormat_times_for_audioObjects sel
              (fix_blockFormat_interpolationLengths (fix_blockFormat_durations adm).1).1).diags,
       (fix_blockFormat_times_for_audioObjects sel
          (fix_blockFormat_interpolationLengths (fix_blockFormat_durations adm).1).1).error⟩ :=
  rfl

/-! ### Containment predicate and clamp specifications (towards C4, C7) -/

/-- Containment of a block in the span `[s, s+d)`: when the block is fully
timed, `s ≤ rtime` and `rtime + duration ≤ s + d`. -/
def Contained (s d : Int) (bf : BlockFormat) : Prop :=
  bf.rtime.isSome = true → bf.duration.isSome = true →
    s ≤ rtimeD bf ∧ rtimeD bf + durationD bf ≤ s + d

instance (s d : Int) (bf : BlockFormat) : Decidable (Contained s d bf) := by
  unfold Contained; infer_instance

/-- Success specification of the start clamp on a fully-timed block. -/
theorem clampStart_ok_spec (bf : BlockFormat) (obj : ObjSpan) (rt dur : Int)
    (hrt : bf.rtime = some rt) (hd : bf.duration = some dur)
    (hok : (clampStart bf obj).error = none) :
    ∃ sh, (clampStart bf obj).value.rtime = some (rt + sh)
      ∧ (clampStart bf obj).value.duration = some (dur - sh)
      ∧ ((sh = 0 ∧ obj.start ≤ rt) ∨ (0 < sh ∧ sh < dur ∧ rt + sh = obj.start))
      ∧ ((interpLength bf).isSome →
          interpLength (clampStart bf obj).value = (interpLength bf).map (fun x => x - sh))
      ∧ (interpLength bf = none → interpLength (clampStart bf obj).value = none) := by
  simp only [clampStart, hrt, hd] at hok ⊢
  by_cases hlt : rt < obj.start
  · rw [if_pos hlt] at hok ⊢
    try dsimp only at hok ⊢
    by_cases hsh : obj.start - rt ≥ dur
    · rw [if_pos hsh] at hok
      exact absurd hok (by simp)
    · rw [if_neg hsh] at hok ⊢
      rcases hil : interpLength bf with _ | il <;> rw [hil] at hok <;>
        dsimp only at hok ⊢
      · refine ⟨obj.start - rt, rfl, rfl, Or.inr ⟨by omega, by omega, by omega⟩, ?_, ?_⟩
        · intro hs
          exact absurd hs (by simp)
        · intro _
          exact hil
      · by_cases hle : il ≤ obj.start - rt
        · rw [if_pos hle] at hok
          exact absurd hok (by simp)
        · rw [if_neg hle] at hok ⊢
          refine ⟨obj.start - rt, rfl, rfl, Or.inr ⟨by omega, by omega, by omega⟩, ?_, ?_⟩
          · intro _
            dsimp only
            rw [interpLength_setInterpLength_of_isSome
              { id := bf.id, rtime := some (rt + (obj.start - rt)),
                duration := some (dur - (obj.start - rt)),
                isObjects := bf.isObjects, jumpPosition := bf.jumpPosition }
              (il - (obj.start - rt))
              (show (interpLength bf).isSome = true by simp [hil])]
            rfl
          · intro hn
            exact absurd hn (by simp)
  · rw [if_neg hlt]
    refine ⟨0, by simp [hrt], by simp [hd], Or.inl ⟨rfl, by omega⟩, ?_, fun hn => hn⟩
    intro hs
    obtain ⟨il, hil⟩ := Option.isSome_iff_exists.mp hs
    rw [hil]
    simp

/-- Success specification of the end clamp on a fully-timed block. -/
theorem clampEnd_ok_spec (bf : BlockFormat) (obj : ObjSpan) (rt dur : Int)
    (hrt : bf.rtime = some rt) (hd : bf.duration = some dur)
    (hok : (clampEnd bf obj).error = none) :
    ∃ sh, (clampEnd bf obj).value.rtime = some rt
      ∧ (clampEnd bf obj).value.duration = some (dur - sh)
      ∧ ((sh = 0 ∧ rt + dur ≤ obj.start + obj.duration)
         ∨ (0 < sh ∧ sh < dur ∧ rt + (dur - sh) = obj.start + obj.duration))
      ∧ (∀ il2, interpLength (clampEnd bf obj).value = some il2 →
          il2 ≤ dur - sh ∨ (sh = 0 ∧ interpLength bf = some il2))
      ∧ (interpLength bf = none → interpLength (clampEnd bf obj).value = none)
      ∧ ((interpLength bf).isSome → (interpLength (clampEnd bf obj).value).isSome) := by
  simp only [clampEnd, hrt, hd] at hok ⊢
  by_cases hgt : rt + dur > obj.start + obj.duration
  · rw [if_pos hgt] at hok ⊢
    try dsimp only at hok ⊢
    by_cases hsh : rt + dur - (obj.start + obj.duration) ≥ dur
    · rw [if_pos hsh] at hok
      exact absurd hok (by simp)
    · rw [if_neg hsh] at hok ⊢
      rcases hil : interpLength
          { id := bf.id, rtime := some rt,
            duration := some (dur - (rt + dur - (obj.start + obj.duration))),
            isObjects := bf.isObjects, jumpPosition := bf.jumpPosition }
          with _ | il <;> rw [hil] at hok <;> dsimp only at hok ⊢
      · have hbf : interpLength bf = none := hil
        refine ⟨rt + dur - (obj.start + obj.duration), rfl, rfl,
          Or.inr ⟨by omega, by omega, by omega⟩, ?_, fun _ => hil, ?_⟩
        · intro il2 h2
          rw [hil] at h2
          exact absurd h2 (by simp)
        · intro hs
          rw [hbf] at hs
          exact absurd hs (by simp)
      · have hbf : interpLength bf = some il := hil
        by_cases hex : il > dur - (rt + dur - (obj.start + obj.duration))
        · rw [if_pos hex] at hok ⊢
          have hset := interpLength_setInterpLength_of_isSome
            { id := bf.id, rtime := some rt,
              duration := some (dur - (rt + dur - (obj.start + obj.duration))),
              isObjects := bf.isObjects, jumpPosition := bf.jumpPosition }
            (dur - (rt + dur - (obj.start + obj.duration)))
            (show (interpLength bf).isSome = true by simp [hbf])
          refine ⟨rt + dur - (obj.start + obj.duration), rfl, rfl,
            Or.inr ⟨by omega, by omega, by omega⟩, ?_, ?_, ?_⟩
          · intro il2 h2
            rw [hset] at h2
            obtain rfl : dur - (rt + dur - (obj.start + obj.duration)) = il2 := by
              simpa using h2
            exact Or.inl (le_refl _)
          · intro hn
            rw [hn] at hbf
            exact absurd hbf (by simp)
          · intro _
            rw [hset]
            simp
        · rw [if_neg hex] at hok ⊢
          refine ⟨rt + dur - (obj.start + obj.duration), rfl, rfl,
            Or.inr ⟨by omega, by omega, by omega⟩, ?_, ?_, ?_⟩
          · intro il2 h2
            rw [hil] at h2
            obtain rfl : il = il2 := by simpa using h2
            exact Or.inl (by omega)
          · intro hn
            rw [hn] at hbf
            exact absurd hbf (by simp)
          · intro _
            rw [hil]
            simp
  · rw [if_neg hgt]
    refine ⟨0, by simp [hrt], by simp [hd], Or.inl ⟨rfl, by omega⟩,
      fun il2 h2 => Or.inr ⟨rfl, h2⟩, fun hn => hn, fun hs => hs⟩

theorem clampTimes_fully_err (bf : BlockFormat) (obj : ObjSpan) (rt dur : Int)
    (e : ClampError) (hrt : bf.rtime = some rt) (hd : bf.duration = some dur)
    (he : (clampStart bf obj).error = some e) :
    clampTimes bf obj = ⟨(clampStart bf obj).value, (clampStart bf obj).diags, some e⟩ := by
  simp only [clampTimes, hrt, hd, he]

theorem clampTimes_fully_ok (bf : BlockFormat) (obj : ObjSpan) (rt dur : Int)
    (hrt : bf.rtime = some rt) (hd : bf.duration = some dur)
    (he : (clampStart bf obj).error = none) :
    clampTimes bf obj =
      ⟨(clampEnd (clampStart bf obj).value obj).value,
       (clampStart bf obj).diags ++ (clampEnd (clampStart bf obj).value obj).diags,
       (clampEnd (clampStart bf obj).value obj).error⟩ := by
  simp only [clampTimes, hrt, hd, he]

/-- Composite success specification of `_clamp_blockFormat_times` on a
fully-timed block. -/
theorem clampTimes_ok_spec (bf : BlockFormat) (obj : ObjSpan) (rt dur : Int)
    (hrt : bf.rtime = some rt) (hd : bf.duration = some dur)
    (hok : (clampTimes bf obj).error = none) :
    ∃ rt2 dur2, (clampTimes bf obj).value.rtime = some rt2
      ∧ (clampTimes bf obj).value.duration = some dur2
      ∧ obj.start ≤ rt2 ∧ rt ≤ rt2
      ∧ rt2 + dur2 ≤ obj.start + obj.duration ∧ rt2 + dur2 ≤ rt + dur
      ∧ (rt2 + dur2 = rt + dur ∨ rt2 + dur2 = obj.start + obj.duration)
      ∧ (obj.start ≤ rt → rt2 = rt)
      ∧ (0 ≤ dur → 0 < dur2 ∨ dur2 = dur)
      ∧ ((∀ il, interpLength bf = some il → il ≤ dur) →
          ∀ il2, interpLength (clampTimes bf obj).value = some il2 → il2 ≤ dur2) := by
  rcases hse : (clampStart bf obj).error with _ | e
  case some =>
    rw [clampTimes_fully_err bf obj rt dur e hrt hd hse] at hok
    exact absurd hok (by simp)
  case none =>
  have heq := clampTimes_fully_ok bf obj rt dur hrt hd hse
  rw [heq] at hok ⊢
  obtain ⟨sh₁, hr₁, hd₁, hc₁, hil₁, hiln₁⟩ := clampStart_ok_spec bf obj rt dur hrt hd hse
  obtain ⟨sh₂, hr₂, hd₂, hc₂, hil₂, hiln₂, hils₂⟩ :=
    clampEnd_ok_spec (clampStart bf obj).value obj (rt + sh₁) (dur - sh₁) hr₁ hd₁ hok
  refine ⟨rt + sh₁, dur - sh₁ - sh₂, hr₂, hd₂, ?_, ?_, ?_, ?_, ?_, ?_, ?_, ?_⟩
  · rcases hc₁ with ⟨h0, hge⟩ | ⟨_, _, heq₁⟩ <;> omega
  · omega
  · rcases hc₂ with ⟨h0, hle⟩ | ⟨_, _, heq₂⟩ <;> omega
  · omega
  · rcases hc₂ with ⟨h0, hle⟩ | ⟨_, _, heq₂⟩
    · left
      omega
    · right
      omega
  · intro hge
    rcases hc₁ with ⟨h0, _⟩ | ⟨hp₁, _, heq₁⟩ <;> omega
  · intro hdur
    rcases hc₁ with ⟨h0, _⟩ | ⟨hp₁, hlt₁, _⟩ <;> rcases hc₂ with ⟨h02, _⟩ | ⟨hp₂, hlt₂, _⟩ <;>
      omega
  · intro hpre il2 hil2
    rcases hil₂ il2 hil2 with hle | ⟨h0, hmid⟩
    · omega
    · rcases hils : interpLength bf with _ | il
      · rw [hiln₁ hils] at hmid
        exact absurd hmid (by simp)
      · have hmap := hil₁ (by simp [hils])
        rw [hils] at hmap
        rw [hmap] at hmid
        obtain rfl : il - sh₁ = il2 := by simpa using hmid
        have := hpre il hils
        omega

theorem clampStart_noop (bf : BlockFormat) (obj : ObjSpan) (rt dur : Int)
    (hrt : bf.rtime = some rt) (hd : bf.duration = some dur)
    (hge : obj.start ≤ rt) : clampStart bf obj = ⟨bf, [], none⟩ := by
  simp only [clampStart, hrt, hd]
  rw [if_neg (not_lt.mpr hge)]

theorem clampEnd_noop (bf : BlockFormat) (obj : ObjSpan) (rt dur : Int)
    (hrt : bf.rtime = some rt) (hd : bf.duration = some dur)
    (hle : rt + dur ≤ obj.start + obj.duration) : clampEnd bf obj = ⟨bf, [], none⟩ := by
  simp only [clampEnd, hrt, hd]
  rw [if_neg (not_lt.mpr hle)]

/-- A fully-timed block already contained in the object needs no clamping:
`_clamp_blockFormat_times` is the identity with no diagnostics. -/
theorem clampTimes_noop (bf : BlockFormat) (obj : ObjSpan) (rt dur : Int)
    (hrt : bf.rtime = some rt) (hd : bf.duration = some dur)
    (h1 : obj.start ≤ rt) (h2 : rt + dur ≤ obj.start + obj.duration) :
    clampTimes bf obj = ⟨bf, [], none⟩ := by
  have hs := clampStart_noop bf obj rt dur hrt hd h1
  have heq := clampTimes_fully_ok bf obj rt dur hrt hd (by rw [hs])
  rw [heq, hs]
  dsimp only
  rw [clampEnd_noop bf obj rt dur hrt hd h2]
  rfl

theorem clampStart_err_of_low (bf : BlockFormat) (obj : ObjSpan) (rt dur : Int)
    (hrt : bf.rtime = some rt) (hd : bf.duration = some dur)
    (hdur : 0 ≤ dur) (hlow : rt + dur < obj.start) :
    (clampStart bf obj).error.isSome := by
  simp only [clampStart, hrt, hd]
  rw [if_pos (show rt < obj.start by omega)]
  try dsimp only
  rw [if_pos (show obj.start - rt ≥ dur by omega)]
  simp

theorem clampEnd_err_of_high (bf : BlockFormat) (obj : ObjSpan) (rt dur : Int)
    (hrt : bf.rtime = some rt) (hd : bf.duration = some dur)
    (hdur : 0 ≤ dur) (hhigh : obj.start + obj.duration < rt) :
    (clampEnd bf obj).error.isSome := by
  simp only [clampEnd, hrt, hd]
  rw [if_pos (show rt + dur > obj.start + obj.duration by omega)]
  try dsimp only
  rw [if_pos (show rt + dur - (obj.start + obj.duration) ≥ dur by omega)]
  simp

theorem clampTimes_err_of_low (bf : BlockFormat) (obj : ObjSpan) (rt dur : Int)
    (hrt : bf.rtime = some rt) (hd : bf.duration = some dur)
    (hdur : 0 ≤ dur) (hlow : rt + dur < obj.start) :
    (clampTimes bf obj).error.isSome := by
  have herr := clampStart_err_of_low bf obj rt dur hrt hd hdur hlow
  rcases hse : (clampStart bf obj).error with _ | e
  · rw [hse] at herr
    exact absurd herr (by simp)
  · rw [clampTimes_fully_err bf obj rt dur e hrt hd hse]
    simp

theorem clampTimes_err_of_high (bf : BlockFormat) (obj : ObjSpan) (rt dur : Int)
    (hrt : bf.rtime = some rt) (hd : bf.duration = some dur)
    (hdur : 0 ≤ dur) (hod : 0 ≤ obj.duration)
    (hhigh : obj.start + obj.duration < rt) :
    (clampTimes bf obj).error.isSome := by
  have hs := clampStart_noop bf obj rt dur hrt hd (by omega)
  have heq := clampTimes_fully_ok bf obj rt dur hrt hd (by rw [hs])
  rw [heq]
  dsimp only
  rw [hs]
  exact clampEnd_err_of_high bf obj rt dur hrt hd hdur hhigh

/-- Containment established by a successful clamp against the object. -/
theorem clampTimes_ok_contained (bf : BlockFormat) (obj : ObjSpan)
    (hok : (clampTimes bf obj).error = none) :
    Contained obj.start obj.duration (clampTimes bf obj).value := by
  rcases hrt : bf.rtime with _ | rt
  · rw [clampTimes_unset bf obj (Or.inl hrt)]
    intro h1 _
    rw [clampInterpLengthOnly_rtime, hrt] at h1
    exact absurd h1 (by simp)
  · rcases hdu : bf.duration with _ | dur
    · rw [clampTimes_unset bf obj (Or.inr hdu)]
      intro _ h2
      rw [clampInterpLengthOnly_duration, hdu] at h2
      exact absurd h2 (by simp)
    · obtain ⟨rt2, dur2, h1, h2, h3, _, h5, _⟩ := clampTimes_ok_spec bf obj rt dur hrt hdu hok
      intro _ _
      unfold rtimeD durationD
      rw [h1, h2]
      simp only [Option.getD_some]
      exact ⟨h3, h5⟩

/-- Containment in any other span is preserved by a successful clamp. -/
theorem clampTimes_ok_contained_pres (bf : BlockFormat) (obj : ObjSpan) (s d : Int)
    (hc : Contained s d bf) (hok : (clampTimes bf obj).error = none) :
    Contained s d (clampTimes bf obj).value := by
  rcases hrt : bf.rtime with _ | rt
  · rw [clampTimes_unset bf obj (Or.inl hrt)]
    intro h1 _
    rw [clampInterpLengthOnly_rtime, hrt] at h1
    exact absurd h1 (by simp)
  · rcases hdu : bf.duration with _ | dur
    · rw [clampTimes_unset bf obj (Or.inr hdu)]
      intro _ h2
      rw [clampInterpLengthOnly_duration, hdu] at h2
      exact absurd h2 (by simp)
    · obtain ⟨rt2, dur2, h1, h2, _, h4, _, h6, _⟩ := clampTimes_ok_spec bf obj rt dur hrt hdu hok
      have hcc := hc (by simp [hrt]) (by simp [hdu])
      unfold rtimeD durationD at hcc
      rw [hrt, hdu] at hcc
      simp only [Option.getD_some] at hcc
      intro _ _
      unfold rtimeD durationD
      rw [h1, h2]
      simp only [Option.getD_some]
      constructor <;> omega

/-! ### The containment pass over channels and objects (C4) -/

theorem clampBlocks_nil (obj : ObjSpan) : clampBlocks obj [] = ⟨[], [], none⟩ := rfl

theorem clampBlocks_cons_err (obj : ObjSpan) (bf : BlockFormat) (rest : List BlockFormat)
    (e : ClampError) (h : (clampTimes bf obj).error = some e) :
    clampBlocks obj (bf :: rest)
      = ⟨(clampTimes bf obj).value :: rest, (clampTimes bf obj).diags, some e⟩ := by
  simp only [clampBlocks, h]

theorem clampBlocks_cons_ok (obj : ObjSpan) (bf : BlockFormat) (rest : List BlockFormat)
    (h : (clampTimes bf obj).error = none) :
    clampBlocks obj (bf :: rest)
      = ⟨(clampTimes bf obj).value :: (clampBlocks obj rest).value,
         (clampTimes bf obj).diags ++ (clampBlocks obj rest).diags,
         (clampBlocks obj rest).error⟩ := by
  simp only [clampBlocks, h]

/-- Every block of an error-free channel clamp is the successful clamp of a
block of the input channel. -/
theorem clampBlocks_ok_mem (obj : ObjSpan) (bs : List BlockFormat)
    (hok : (clampBlocks obj bs).error = none) :
    ∀ b2 ∈ (clampBlocks obj bs).value,
      ∃ b ∈ bs, (clampTimes b obj).error = none ∧ (clampTimes b obj).value = b2 := by
  induction bs with
  | nil =>
      intro b2 h
      rw [clampBlocks_nil] at h
      exact absurd h (by simp)
  | cons bf rest ih =>
      rcases he : (clampTimes bf obj).error with _ | e
      · rw [clampBlocks_cons_ok obj bf rest he] at hok ⊢
        dsimp only at hok ⊢
        intro b2 hb2
        rcases List.mem_cons.mp hb2 with rfl | hmem
        · exact ⟨bf, List.mem_cons_self bf rest, he, rfl⟩
        · obtain ⟨b, hb, h1, h2⟩ := ih hok b2 hmem
          exact ⟨b, List.mem_cons_of_mem _ hb, h1, h2⟩
      · rw [clampBlocks_cons_err obj bf rest e he] at hok
        exact absurd hok (by simp)

/-- All blocks of the channel format at index `j` are contained in `[s, s+d)`. -/
def ChanContainedAt (s d : Int) (cfs : List ChannelFormat) (j : Nat) : Prop :=
  ∀ cf, cfs[j]? = some cf → ∀ b ∈ cf.audioBlockFormats, Contained s d b

theorem clampChannelAt_none (obj : ObjSpan) (cfs : List ChannelFormat) (i : Nat)
    (h : cfs[i]? = none) : clampChannelAt obj cfs i = ⟨cfs, [], none⟩ := by
  simp only [clampChannelAt, h]

theorem clampChannelAt_some (obj : ObjSpan) (cfs : List ChannelFormat) (i : Nat)
    (cf : ChannelFormat) (h : cfs[i]? = some cf) :
    clampChannelAt obj cfs i
      = ⟨cfs.set i ⟨(clampBlocks obj cf.audioBlockFormats).value⟩,
         (clampBlocks obj cf.audioBlockFormats).diags,
         (clampBlocks obj cf.audioBlockFormats).error⟩ := by
  simp only [clampChannelAt, h]

theorem clampChannelAt_pres (obj : ObjSpan) (cfs : List ChannelFormat) (i : Nat)
    (s d : Int) (j : Nat) (hok : (clampChannelAt obj cfs i).error = none)
    (h : ChanContainedAt s d cfs j) :
    ChanContainedAt s d (clampChannelAt obj cfs i).value j := by
  rcases hcf : cfs[i]? with _ | cf
  · rw [clampChannelAt_none obj cfs i hcf]
    exact h
  · have hlen : i < cfs.length := by
      by_contra hnot
      rw [List.getElem?_eq_none (Nat.le_of_not_lt hnot)] at hcf
      exact absurd hcf (by simp)
    rw [clampChannelAt_some obj cfs i cf hcf] at hok ⊢
    dsimp only at hok ⊢
    intro cf2 hcf2 b2 hb2
    by_cases hij : i = j
    · subst hij
      rw [List.getElem?_set_self hlen] at hcf2
      obtain rfl : (⟨(clampBlocks obj cf.audioBlockFormats).value⟩ : ChannelFormat) = cf2 := by
        simpa using hcf2
      obtain ⟨b, hb, h1, h2⟩ := clampBlocks_ok_mem obj cf.audioBlockFormats hok b2 hb2
      rw [← h2]
      exact clampTimes_ok_contained_pres b obj s d (h cf hcf b hb) h1
    · rw [List.getElem?_set_ne hij] at hcf2
      exact h cf2 hcf2 b2 hb2

theorem clampChannelAt_establish (obj : ObjSpan) (cfs : List ChannelFormat) (i : Nat)
    (hok : (clampChannelAt obj cfs i).error = none) :
    ChanContainedAt obj.start obj.duration (clampChannelAt obj cfs i).value i := by
  rcases hcf : cfs[i]? with _ | cf
  · rw [clampChannelAt_none obj cfs i hcf]
    intro cf2 hcf2
    rw [hcf] at hcf2
    exact absurd hcf2 (by simp)
  · have hlen : i < cfs.length := by
      by_contra hnot
      rw [List.getElem?_eq_none (Nat.le_of_not_lt hnot)] at hcf
      exact absurd hcf (by simp)
    rw [clampChannelAt_some obj cfs i cf hcf] at hok ⊢
    dsimp only at hok ⊢
    intro cf2 hcf2 b2 hb2
    rw [List.getElem?_set_self hlen] at hcf2
    obtain rfl : (⟨(clampBlocks obj cf.audioBlockFormats).value⟩ : ChannelFormat) = cf2 := by
      simpa using hcf2
    obtain ⟨b, _, h1, h2⟩ := clampBlocks_ok_mem obj cf.audioBlockFormats hok b2 hb2
    rw [← h2]
    exact clampTimes_ok_contained b obj h1

theorem processChans_nil (obj : ObjSpan) (cfs : List ChannelFormat) :
    processChans obj cfs [] = ⟨cfs, [], none⟩ := rfl

theorem processChans_cons_err (obj : ObjSpan) (cfs : List ChannelFormat) (i : Nat)
    (rest : List Nat) (e : ClampError) (h : (clampChannelAt obj cfs i).error = some e) :
    processChans obj cfs (i :: rest)
      = ⟨(clampChannelAt obj cfs i).value, (clampChannelAt obj cfs i).diags, some e⟩ := by
  simp only [processChans, h]

theorem processChans_cons_ok (obj : ObjSpan) (cfs : List ChannelFormat) (i : Nat)
    (rest : List Nat) (h : (clampChannelAt obj cfs i).error = none) :
    processChans obj cfs (i :: rest)
      = ⟨(processChans obj (clampChannelAt obj cfs i).value rest).value,
         (clampChannelAt obj cfs i).diags
           ++ (processChans obj (clampChannelAt obj cfs i).value rest).diags,
         (processChans obj (clampChannelAt obj cfs i).value rest).error⟩ := by
  simp only [processChans, h]

theorem processChans_pres (obj : ObjSpan) (s d : Int) (js : List Nat) :
    ∀ cfs j, (processChans obj cfs js).error = none → ChanContainedAt s d cfs j →
      ChanContainedAt s d (processChans obj cfs js).value j := by
  induction js with
  | nil =>
      intro cfs j _ h
      rw [processChans_nil]
      exact h
  | cons i rest ih =>
      intro cfs j hok h
      rcases he : (clampChannelAt obj cfs i).error with _ | e
      · rw [processChans_cons_ok obj cfs i rest he] at hok ⊢
        dsimp only at hok ⊢
        exact ih _ j hok (clampChannelAt_pres obj cfs i s d j he h)
      · rw [processChans_cons_err obj cfs i rest e he] at hok
        exact absurd hok (by simp)

theorem processChans_establish (obj : ObjSpan) (js : List Nat) :
    ∀ cfs, (processChans obj cfs js).error = none →
      ∀ j ∈ js, ChanContainedAt obj.start obj.duration (processChans obj cfs js).value j := by
  induction js with
  | nil =>
      intro cfs _ j hj
      exact absurd hj (by simp)
  | cons i rest ih =>
      intro cfs hok j hj
      rcases he : (clampChannelAt obj cfs i).error with _ | e
      · rw [processChans_cons_ok obj cfs i rest he] at hok ⊢
        dsimp only at hok ⊢
        rcases List.mem_cons.mp hj with rfl | hmem
        · exact processChans_pres obj obj.start obj.duration rest _ j hok
            (clampChannelAt_establish obj cfs j he)
        · exact ih _ hok j hmem
      · rw [processChans_cons_err obj cfs i rest e he] at hok
        exact absurd hok (by simp)

theorem processObject_unset (cfs : List ChannelFormat) (obj : AudioObject)
    (chans : List Nat) (h : obj.start = none ∨ obj.duration = none) :
    processObject cfs obj chans = ⟨cfs, [], none⟩ := by
  rcases hs : obj.start with _ | s <;> rcases hdu : obj.duration with _ | d <;>
    simp only [processObject, hs, hdu]
  exfalso
  rcases h with h | h
  · rw [hs] at h
    exact absurd h (by simp)
  · rw [hdu] at h
    exact absurd h (by simp)

theorem processObject_set (cfs : List ChannelFormat) (obj : AudioObject)
    (chans : List Nat) (s d : Int) (hs : obj.start = some s) (hd : obj.duration = some d) :
    processObject cfs obj chans = processChans ⟨obj.id, s, d⟩ cfs chans := by
  simp only [processObject, hs, hd]

theorem processObject_pres (cfs : List ChannelFormat) (obj : AudioObject)
    (chans : List Nat) (s0 d0 : Int) (j : Nat)
    (hok : (processObject cfs obj chans).error = none)
    (h : ChanContainedAt s0 d0 cfs j) :
    ChanContainedAt s0 d0 (processObject cfs obj chans).value j := by
  rcases hs : obj.start with _ | s
  · rw [processObject_unset cfs obj chans (Or.inl hs)]
    exact h
  rcases hdu : obj.duration with _ | d
  · rw [processObject_unset cfs obj chans (Or.inr hdu)]
    exact h
  rw [processObject_set cfs obj chans s d hs hdu] at hok ⊢
  exact processChans_pres ⟨obj.id, s, d⟩ s0 d0 chans cfs j hok h

theorem processObject_establish (cfs : List ChannelFormat) (obj : AudioObject)
    (chans : List Nat) (s d : Int) (hs : obj.start = some s) (hd : obj.duration = some d)
    (hok : (processObject cfs obj chans).error = none) :
    ∀ j ∈ chans, ChanContainedAt s d (processObject cfs obj chans).value j := by
  rw [processObject_set cfs obj chans s d hs hd] at hok ⊢
  exact processChans_establish ⟨obj.id, s, d⟩ chans cfs hok

theorem processObjects_nil (sel : Nat → List Nat) (i0 : Nat) (cfs : List ChannelFormat) :
    processObjects sel [] i0 cfs = ⟨cfs, [], none⟩ := rfl

theorem processObjects_cons_err (sel : Nat → List Nat) (o : AudioObject)
    (rest : List AudioObject) (i0 : Nat) (cfs : List ChannelFormat) (e : ClampError)
    (h : (processObject cfs o (sel i0)).error = some e) :
    processObjects sel (o :: rest) i0 cfs
      = ⟨(processObject cfs o (sel i0)).value, (processObject cfs o (sel i0)).diags, some e⟩ := by
  simp only [processObjects, h]

theorem processObjects_cons_ok (sel : Nat → List Nat) (o : AudioObject)
    (rest : List AudioObject) (i0 : Nat) (cfs : List ChannelFormat)
    (h : (processObject cfs o (sel i0)).error = none) :
    processObjects sel (o :: rest) i0 cfs
      = ⟨(processObjects sel rest (i0 + 1) (processObject cfs o (sel i0)).value).value,
         (processObject cfs o (sel i0)).diags
           ++ (processObjects sel rest (i0 + 1) (processObject cfs o (sel i0)).value).diags,
         (processObjects sel rest (i0 + 1) (processObject cfs o (sel i0)).value).error⟩ := by
  simp only [processObjects, h]

theorem processObjects_pres (sel : Nat → List Nat) (s d : Int) (objs : List AudioObject) :
    ∀ i0 cfs j, (processObjects sel objs i0 cfs).error = none →
      ChanContainedAt s d cfs j →
      ChanContainedAt s d (processObjects sel objs i0 cfs).value j := by
  induction objs with
  | nil =>
      intro i0 cfs j _ h
      rw [processObjects_nil]
      exact h
  | cons o rest ih =>
      intro i0 cfs j hok h
      rcases he : (processObject cfs o (sel i0)).error with _ | e
      · rw [processObjects_cons_ok sel o rest i0 cfs he] at hok ⊢
        dsimp only at hok ⊢
        exact ih (i0 + 1) _ j hok (processObject_pres cfs o (sel i0) s d j he h)
      · rw [processObjects_cons_err sel o rest i0 cfs e he] at hok
        exact absurd hok (by simp)

theorem processObjects_establish (sel : Nat → List Nat) (objs : List AudioObject) :
    ∀ i0 cfs, (processObjects sel objs i0 cfs).error = none →
      ∀ k obj s d, objs[k]? = some obj → obj.start = some s → obj.duration = some d →
        ∀ j ∈ sel (i0 + k), ChanContainedAt s d (processObjects sel objs i0 cfs).value j := by
  induction objs with
  | nil =>
      intro i0 cfs _ k obj s d hk
      exact absurd hk (by simp)
  | cons o rest ih =>
      intro i0 cfs hok k obj s d hk hs hd j hj
      rcases he : (processObject cfs o (sel i0)).error with _ | e
      · rw [processObjects_cons_ok sel o rest i0 cfs he] at hok ⊢
        dsimp only at hok ⊢
        rcases k with _ | k
        · obtain rfl : o = obj := by simpa using hk
          refine processObjects_pres sel s d rest (i0 + 1) _ j hok ?_
          exact processObject_establish cfs o (sel i0) s d hs hd he j (by simpa using hj)
        · have hk2 : rest[k]? = some obj := by simpa using hk
          have hj2 : j ∈ sel (i0 + 1 + k) := by
            have harith : i0 + (k + 1) = i0 + 1 + k := by omega
            rwa [harith] at hj
          exact ih (i0 + 1) _ hok k obj s d hk2 hs hd j hj2
      · rw [processObjects_cons_err sel o rest i0 cfs e he] at hok
        exact absurd hok (by simp)

/-- C4: if the Object-Containment Clamper completes without a hard error,
every object with a defined span has every block of every channel format it
selects contained in its span. -/
theorem c4_containment (sel : Nat → List Nat) (adm : ADM)
    (hok : (fix_blockFormat_times_for_audioObjects sel adm).error = none) :
    ∀ k obj s d, adm.audioObjects[k]? = some obj →
      obj.start = some s → obj.duration = some d →
      ∀ j ∈ sel k, ∀ cf,
        (fix_blockFormat_times_for_audioObjects sel adm).value.audioChannelFormats[j]?
          = some cf →
        ∀ bf ∈ cf.audioBlockFormats, Contained s d bf := by
  intro k obj s d hk hs hd j hj cf hcf bf hbf
  have hok2 : (processObjects sel adm.audioObjects 0 adm.audioChannelFormats).error = none :=
    hok
  have h := processObjects_establish sel adm.audioObjects 0 adm.audioChannelFormats hok2
    k obj s d hk hs hd j (by simpa using hj)
  exact h cf hcf bf hbf

def c4wADM : ADM := ⟨[⟨[⟨1, some 0, some 10, false, ⟨false, none⟩⟩]⟩], [⟨5, some 2, some 4⟩]⟩
def c4wBlock : BlockFormat := ⟨1, some 2, some 4, false, ⟨false, none⟩⟩

/-- Witness for C4: a block (rtime 0, duration 10) selected by an object
with span [2, 6) ends up contained in that span. -/
theorem c4_witness : Contained 2 4 c4wBlock :=
  c4_containment (fun _ => [0]) c4wADM (by decide) 0 ⟨5, some 2, some 4⟩ 2 4
    (by decide) rfl rfl 0 (by decide) ⟨[c4wBlock]⟩ (by decide) c4wBlock (by decide)

/-! ### Scene invariants for idempotence (C7) -/

/-- Every defined duration of the block is non-negative. -/
def DurNonneg (bf : BlockFormat) : Prop := ∀ dd, bf.duration = some dd → 0 ≤ dd

/-- A fully-timed block's interpolationLength (when defined) is bounded by
its duration. -/
def ILBounded (bf : BlockFormat) : Prop :=
  bf.rtime.isSome = true →
    ∀ dur il, bf.duration = some dur → interpLength bf = some il → il ≤ dur

/-- rtimes do not decrease along a fully-timed consecutive pair. -/
def RtMono (a b : BlockFormat) : Prop :=
  pairFullyTimed a b = true → rtimeD a ≤ rtimeD b

instance (a b : BlockFormat) : Decidable (RtMono a b) := by
  unfold RtMono; infer_instance

/-- The state a block is left in by a containment clamp against `[s, s+d)`:
containment when fully timed, and an interpolationLength bounded by `d`
when not fully timed. -/
def ClampedFor (s d : Int) (bf : BlockFormat) : Prop :=
  Contained s d bf ∧
  ((bf.rtime = none ∨ bf.duration = none) →
    ∀ il, interpLength bf = some il → il ≤ d)

theorem fixDurationPair_duration_cases (a b : BlockFormat) :
    (fixDurationPair a b).1.duration = a.duration
    ∨ (pairFullyTimed a b = true
        ∧ (fixDurationPair a b).1.duration = some (rtimeD b - rtimeD a)) := by
  by_cases hft : pairFullyTimed a b
  · obtain ⟨⟨⟨h1, h2⟩, h3⟩, h4⟩ :
        ((a.rtime.isSome ∧ a.duration.isSome) ∧ b.rtime.isSome) ∧ b.duration.isSome := by
      simpa [pairFullyTimed, Bool.and_eq_true] using hft
    obtain ⟨art, ha⟩ := Option.isSome_iff_exists.mp h1
    obtain ⟨ad, had⟩ := Option.isSome_iff_exists.mp h2
    obtain ⟨brt, hb⟩ := Option.isSome_iff_exists.mp h3
    right
    refine ⟨hft, ?_⟩
    rw [fixDurationPair_duration a b art ad brt ha had hb h4]
    unfold rtimeD
    rw [ha, hb]
    simp
  · left
    rw [fixDurationPair_skip a b (by simpa using hft)]

/-- Duration reconciliation keeps durations non-negative when the channel's
rtimes are monotone. -/
theorem blocksAfterDur_nonneg (bs : List BlockFormat)
    (hmono : List.Chain' RtMono bs) (hnn : ∀ bf ∈ bs, DurNonneg bf) :
    ∀ bf ∈ blocksAfterDur bs, DurNonneg bf := by
  induction bs with
  | nil =>
      intro bf h
      rw [blocksAfterDur_nil] at h
      exact absurd h (by simp)
  | cons a tail ih =>
      cases tail with
      | nil =>
          intro bf h
          rw [blocksAfterDur_single] at h
          obtain rfl : bf = a := by simpa using h
          exact hnn bf (by simp)
      | cons b rest =>
          intro bf h
          rw [blocksAfterDur_cons₂] at h
          rcases List.mem_cons.mp h with rfl | hmem
          · rcases fixDurationPair_duration_cases a b with hcase | ⟨hft, hcase⟩
            · intro dd hdd
              rw [hcase] at hdd
              exact hnn a (by simp) dd hdd
            · intro dd hdd
              rw [hcase] at hdd
              obtain rfl : rtimeD b - rtimeD a = dd := by simpa using hdd
              have := (List.chain'_cons.mp hmono).1 hft
              omega
          · exact ih (List.chain'_cons.mp hmono).2 (fun x hx => hnn x (by simp [hx])) bf hmem

theorem contiguous_of_eq (a a2 b b2 : BlockFormat)
    (ha1 : a2.rtime = a.rtime) (ha2 : a2.duration = a.duration)
    (hb1 : b2.rtime = b.rtime) (hb2 : b2.duration = b.duration)
    (h : Contiguous a b) : Contiguous a2 b2 := by
  unfold Contiguous pairFullyTimed rtimeD durationD at h ⊢
  rw [ha1, ha2, hb1, hb2]
  exact h

/-- The channel lists produced by `fix_blockFormat_interpolationLengths`. -/
theorem fixInterpLens_channels (adm : ADM) :
    (fix_blockFormat_interpolationLengths adm).1.audioChannelFormats
      = adm.audioChannelFormats.map
          (fun cf => ⟨cf.audioBlockFormats.map fun bf => (fixInterpLenBlock bf).1⟩) := by
  simp only [fix_blockFormat_interpolationLengths, List.map_map]
  rfl

/-- The channel lists produced by `fix_blockFormat_durations`. -/
theorem fixDurations_channels (adm : ADM) :
    (fix_blockFormat_durations adm).1.audioChannelFormats
      = adm.audioChannelFormats.map (fun cf => ⟨blocksAfterDur cf.audioBlockFormats⟩) := by
  simp only [fix_blockFormat_durations, List.map_map]
  rfl

theorem clampInterpLengthOnly_bound (bf : BlockFormat) (obj : ObjSpan) :
    ∀ il2, interpLength (clampInterpLengthOnly bf obj).1 = some il2 →
      il2 ≤ obj.duration := by
  intro il2 h2
  unfold clampInterpLengthOnly at h2
  rcases hil : interpLength bf with _ | il <;> rw [hil] at h2 <;> dsimp only at h2
  · rw [hil] at h2
    exact absurd h2 (by simp)
  · by_cases hgt : il > obj.duration
    · rw [if_pos hgt] at h2
      rw [interpLength_setInterpLength_of_isSome _ _ (by simp [hil])] at h2
      obtain rfl : obj.duration = il2 := by simpa using h2
      exact le_refl _
    · rw [if_neg hgt] at h2
      rw [hil] at h2
      obtain rfl : il = il2 := by simpa using h2
      omega

theorem clampInterpLengthOnly_dec (bf : BlockFormat) (obj : ObjSpan) :
    ∀ il2, interpLength (clampInterpLengthOnly bf obj).1 = some il2 →
      ∃ il, interpLength bf = some il ∧ il2 ≤ il := by
  intro il2 h2
  unfold clampInterpLengthOnly at h2
  rcases hil : interpLength bf with _ | il <;> rw [hil] at h2 <;> dsimp only at h2
  · rw [hil] at h2
    exact absurd h2 (by simp)
  · by_cases hgt : il > obj.duration
    · rw [if_pos hgt] at h2
      rw [interpLength_setInterpLength_of_isSome _ _ (by simp [hil])] at h2
      obtain rfl : obj.duration = il2 := by simpa using h2
      exact ⟨il, rfl, by omega⟩
    · rw [if_neg hgt] at h2
      rw [hil] at h2
      obtain rfl : il = il2 := by simpa using h2
      exact ⟨il, rfl, le_refl _⟩

/-- A successful clamp leaves the block `ClampedFor` the object's own span. -/
theorem clampTimes_ok_clampedFor_self (bf : BlockFormat) (obj : ObjSpan)
    (hok : (clampTimes bf obj).error = none) :
    ClampedFor obj.start obj.duration (clampTimes bf obj).value := by
  refine ⟨clampTimes_ok_contained bf obj hok, ?_⟩
  rcases hrt : bf.rtime with _ | rt
  · rw [clampTimes_unset bf obj (Or.inl hrt)]
    intro _ il2 h2
    exact clampInterpLengthOnly_bound bf obj il2 h2
  · rcases hdu : bf.duration with _ | dur
    · rw [clampTimes_unset bf obj (Or.inr hdu)]
      intro _ il2 h2
      exact clampInterpLengthOnly_bound bf obj il2 h2
    · obtain ⟨rt2, dur2, h1, h2, _⟩ := clampTimes_ok_spec bf obj rt dur hrt hdu hok
      intro hun
      rcases hun with hun | hun
      · rw [h1] at hun
        exact absurd hun (by simp)
      · rw [h2] at hun
        exact absurd hun (by simp)

/-- A successful clamp preserves `ClampedFor` any other span. -/
theorem clampTimes_ok_clampedFor_pres (bf : BlockFormat) (obj : ObjSpan) (s0 d0 : Int)
    (h : ClampedFor s0 d0 bf) (hok : (clampTimes bf obj).error = none) :
    ClampedFor s0 d0 (clampTimes bf obj).value := by
  refine ⟨clampTimes_ok_contained_pres bf obj s0 d0 h.1 hok, ?_⟩
  rcases hrt : bf.rtime with _ | rt
  · rw [clampTimes_unset bf obj (Or.inl hrt)]
    intro _ il2 h2
    obtain ⟨il, hil, hle⟩ := clampInterpLengthOnly_dec bf obj il2 h2
    exact le_trans hle (h.2 (Or.inl hrt) il hil)
  · rcases hdu : bf.duration with _ | dur
    · rw [clampTimes_unset bf obj (Or.inr hdu)]
      intro _ il2 h2
      obtain ⟨il, hil, hle⟩ := clampInterpLengthOnly_dec bf obj il2 h2
      exact le_trans hle (h.2 (Or.inr hdu) il hil)
    · obtain ⟨rt2, dur2, h1, h2, _⟩ := clampTimes_ok_spec bf obj rt dur hrt hdu hok
      intro hun
      rcases hun with hun | hun
      · rw [h1] at hun
        exact absurd hun (by simp)
      · rw [h2] at hun
        exact absurd hun (by simp)

/-- A successful clamp preserves non-negative durations. -/
theorem clampTimes_ok_durNonneg (bf : BlockFormat) (obj : ObjSpan)
    (h : DurNonneg bf) (hok : (clampTimes bf obj).error = none) :
    DurNonneg (clampTimes bf obj).value := by
  rcases hrt : bf.rtime with _ | rt
  · rw [clampTimes_unset bf obj (Or.inl hrt)]
    intro dd hdd
    rw [clampInterpLengthOnly_duration] at hdd
    exact h dd hdd
  · rcases hdu : bf.duration with _ | dur
    · rw [clampTimes_unset bf obj (Or.inr hdu)]
      intro dd hdd
      rw [clampInterpLengthOnly_duration] at hdd
      exact h dd hdd
    · obtain ⟨rt2, dur2, _, h2, _, _, _, _, _, _, hpos, _⟩ :=
        clampTimes_ok_spec bf obj rt dur hrt hdu hok
      intro dd hdd
      rw [h2] at hdd
      obtain rfl : dur2 = dd := by simpa using hdd
      have hd0 : (0 : Int) ≤ dur := h dur hdu
      rcases hpos hd0 with hp | hp <;> omega

/-- A successful clamp preserves interpolation boundedness. -/
theorem clampTimes_ok_ilBounded (bf : BlockFormat) (obj : ObjSpan)
    (h : ILBounded bf) (hok : (clampTimes bf obj).error = none) :
    ILBounded (clampTimes bf obj).value := by
  rcases hrt : bf.rtime with _ | rt
  · rw [clampTimes_unset bf obj (Or.inl hrt)]
    intro hs
    rw [clampInterpLengthOnly_rtime, hrt] at hs
    exact absurd hs (by simp)
  · rcases hdu : bf.duration with _ | dur
    · rw [clampTimes_unset bf obj (Or.inr hdu)]
      intro _ dur2 il2 hd2 _
      rw [clampInterpLengthOnly_duration, hdu] at hd2
      exact absurd hd2 (by simp)
    · obtain ⟨rt2, dur2, h1, h2, _, _, _, _, _, _, _, hil⟩ :=
        clampTimes_ok_spec bf obj rt dur hrt hdu hok
      intro _ dur3 il3 hd3 hil3
      rw [h2] at hd3
      obtain rfl : dur2 = dur3 := by simpa using hd3
      exact hil (fun il hi => h (by simp [hrt]) dur il hdu hi) il3 hil3

/-- Two adjacent fully-timed contiguous blocks that are both successfully
clamped against the same object stay contiguous (given non-negative
durations): a clamp that would break contiguity necessarily errors. -/
theorem clampTimes_ok_contig (a b : BlockFormat) (obj : ObjSpan)
    (hda : DurNonneg a) (hdb : DurNonneg b) (hodn : 0 ≤ obj.duration)
    (hcontig : Contiguous a b)
    (hoka : (clampTimes a obj).error = none) (hokb : (clampTimes b obj).error = none) :
    Contiguous (clampTimes a obj).value (clampTimes b obj).value := by
  intro hft
  simp only [pairFullyTimed, Bool.and_eq_true] at hft
  obtain ⟨⟨⟨hA1, hA2⟩, hB1⟩, hB2⟩ := hft
  rcases hra : a.rtime with _ | rtA
  · rw [clampTimes_unset a obj (Or.inl hra)] at hA1
    dsimp only at hA1
    rw [clampInterpLengthOnly_rtime, hra] at hA1
    exact absurd hA1 (by simp)
  rcases hrda : a.duration with _ | durA
  · rw [clampTimes_unset a obj (Or.inr hrda)] at hA2
    dsimp only at hA2
    rw [clampInterpLengthOnly_duration, hrda] at hA2
    exact absurd hA2 (by simp)
  rcases hrb : b.rtime with _ | rtB
  · rw [clampTimes_unset b obj (Or.inl hrb)] at hB1
    dsimp only at hB1
    rw [clampInterpLengthOnly_rtime, hrb] at hB1
    exact absurd hB1 (by simp)
  rcases hrdb : b.duration with _ | durB
  · rw [clampTimes_unset b obj (Or.inr hrdb)] at hB2
    dsimp only at hB2
    rw [clampInterpLengthOnly_duration, hrdb] at hB2
    exact absurd hB2 (by simp)
  have hco : rtB = rtA + durA := by
    have h := hcontig (by simp [pairFullyTimed, hra, hrda, hrb, hrdb])
    rw [hrb] at h
    unfold rtimeD durationD at h
    rw [hra, hrda] at h
    simpa using h
  obtain ⟨rtA2, durA2, hA1s, hA2s, _, _, _, hsumA2, hdisjA, _, _, _⟩ :=
    clampTimes_ok_spec a obj rtA durA hra hrda hoka
  obtain ⟨rtB2, durB2, hB1s, hB2s, _, _, _, _, _, hnoopB, _, _⟩ :=
    clampTimes_ok_spec b obj rtB durB hrb hrdb hokb
  have hge : obj.start ≤ rtB := by
    by_contra hlt
    have herr := clampTimes_err_of_low a obj rtA durA hra hrda (hda durA hrda) (by omega)
    rw [hoka] at herr
    exact absurd herr (by simp)
  have hle : rtB ≤ obj.start + obj.duration := by
    by_contra hgt
    have herr := clampTimes_err_of_high b obj rtB durB hrb hrdb (hdb durB hrdb) hodn
      (by omega)
    rw [hokb] at herr
    exact absurd herr (by simp)
  have hBnoop : rtB2 = rtB := hnoopB hge
  have hsum : rtA2 + durA2 = rtB := by
    rcases hdisjA with h | h <;> omega
  rw [hB1s]
  unfold rtimeD durationD
  rw [hA1s, hA2s]
  simp only [Option.getD_some]
  congr 1
  omega

/-! ### Generic preservation of per-block invariants through the
containment pass -/

/-- A per-block predicate preserved by every successful clamp. -/
def StableBlockPred (P : BlockFormat → Prop) : Prop :=
  ∀ bf obj, (clampTimes bf obj).error = none → P bf → P (clampTimes bf obj).value

/-- All blocks of the channel format at index `j` satisfy `P`. -/
def ChanPredAt (P : BlockFormat → Prop) (cfs : List ChannelFormat) (j : Nat) : Prop :=
  ∀ cf, cfs[j]? = some cf → ∀ b ∈ cf.audioBlockFormats, P b

theorem clampChannelAt_stable (P : BlockFormat → Prop) (hP : StableBlockPred P)
    (obj : ObjSpan) (cfs : List ChannelFormat) (i j : Nat)
    (hok : (clampChannelAt obj cfs i).error = none)
    (h : ChanPredAt P cfs j) : ChanPredAt P (clampChannelAt obj cfs i).value j := by
  rcases hcf : cfs[i]? with _ | cf
  · rw [clampChannelAt_none obj cfs i hcf]
    exact h
  · have hlen : i < cfs.length := by
      by_contra hnot
      rw [List.getElem?_eq_none (Nat.le_of_not_lt hnot)] at hcf
      exact absurd hcf (by simp)
    rw [clampChannelAt_some obj cfs i cf hcf] at hok ⊢
    dsimp only at hok ⊢
    intro cf2 hcf2 b2 hb2
    by_cases hij : i = j
    · subst hij
      rw [List.getElem?_set_self hlen] at hcf2
      obtain rfl : (⟨(clampBlocks obj cf.audioBlockFormats).value⟩ : ChannelFormat) = cf2 := by
        simpa using hcf2
      obtain ⟨b, hb, h1, h2⟩ := clampBlocks_ok_mem obj cf.audioBlockFormats hok b2 hb2
      rw [← h2]
      exact hP b obj h1 (h cf hcf b hb)
    · rw [List.getElem?_set_ne hij] at hcf2
      exact h cf2 hcf2 b2 hb2

theorem processChans_stable (P : BlockFormat → Prop) (hP : StableBlockPred P)
    (obj : ObjSpan) (js : List Nat) :
    ∀ cfs j, (processChans obj cfs js).error = none → ChanPredAt P cfs j →
      ChanPredAt P (processChans obj cfs js).value j := by
  induction js with
  | nil =>
      intro cfs j _ h
      rw [processChans_nil]
      exact h
  | cons i rest ih =>
      intro cfs j hok h
      rcases he : (clampChannelAt obj cfs i).error with _ | e
      · rw [processChans_cons_ok obj cfs i rest he] at hok ⊢
        dsimp only at hok ⊢
        exact ih _ j hok (clampChannelAt_stable P hP obj cfs i j he h)
      · rw [processChans_cons_err obj cfs i rest e he] at hok
        exact absurd hok (by simp)

theorem processObject_stable (P : BlockFormat → Prop) (hP : StableBlockPred P)
    (cfs : List ChannelFormat) (o : AudioObject) (chans : List Nat) (j : Nat)
    (hok : (processObject cfs o chans).error = none)
    (h : ChanPredAt P cfs j) : ChanPredAt P (processObject cfs o chans).value j := by
  rcases hs : o.start with _ | s
  · rw [processObject_unset cfs o chans (Or.inl hs)]
    exact h
  rcases hdu : o.duration with _ | d
  · rw [processObject_unset cfs o chans (Or.inr hdu)]
    exact h
  rw [processObject_set cfs o chans s d hs hdu] at hok ⊢
  exact processChans_stable P hP ⟨o.id, s, d⟩ chans cfs j hok h

theorem processObjects_stable (P : BlockFormat → Prop) (hP : StableBlockPred P)
    (sel : Nat → List Nat) (objs : List AudioObject) :
    ∀ i0 cfs j, (processObjects sel objs i0 cfs).error = none → ChanPredAt P cfs j →
      ChanPredAt P (processObjects sel objs i0 cfs).value j := by
  induction objs with
  | nil =>
      intro i0 cfs j _ h
      rw [processObjects_nil]
      exact h
  | cons o rest ih =>
      intro i0 cfs j hok h
      rcases he : (processObject cfs o (sel i0)).error with _ | e
      · rw [processObjects_cons_ok sel o rest i0 cfs he] at hok ⊢
        dsimp only at hok ⊢
        exact ih (i0 + 1) _ j hok (processObject_stable P hP cfs o (sel i0) j he h)
      · rw [processObjects_cons_err sel o rest i0 cfs e he] at hok
        exact absurd hok (by simp)

theorem stable_clampedFor (s0 d0 : Int) : StableBlockPred (ClampedFor s0 d0) :=
  fun bf obj hok h => clampTimes_ok_clampedFor_pres bf obj s0 d0 h hok

theorem stable_durNonneg : StableBlockPred DurNonneg :=
  fun bf obj hok h => clampTimes_ok_durNonneg bf obj h hok

theorem stable_ilBounded : StableBlockPred ILBounded :=
  fun bf obj hok h => clampTimes_ok_ilBounded bf obj h hok

/-! ### Contiguity preservation through the containment pass -/

theorem clampBlocks_chain (obj : ObjSpan) (hodn : 0 ≤ obj.duration) :
    ∀ bs, (∀ b ∈ bs, DurNonneg b) → List.Chain' Contiguous bs →
      (clampBlocks obj bs).error = none →
      List.Chain' Contiguous (clampBlocks obj bs).value := by
  intro bs
  induction bs with
  | nil =>
      intro _ _ _
      rw [clampBlocks_nil]
      simp
  | cons bf rest ih =>
      intro hnn hch hok
      rcases he : (clampTimes bf obj).error with _ | e
      case some =>
        rw [clampBlocks_cons_err obj bf rest e he] at hok
        exact absurd hok (by simp)
      rw [clampBlocks_cons_ok obj bf rest he] at hok ⊢
      dsimp only at hok ⊢
      have hrest : List.Chain' Contiguous (clampBlocks obj rest).value :=
        ih (fun x hx => hnn x (by simp [hx])) hch.tail hok
      cases rest with
      | nil =>
          rw [clampBlocks_nil]
          simp
      | cons b t =>
          rcases hbe : (clampTimes b obj).error with _ | e2
          case some =>
            rw [clampBlocks_cons_err obj b t e2 hbe] at hok
            exact absurd hok (by simp)
          rw [clampBlocks_cons_ok obj b t hbe] at hrest ⊢
          dsimp only at hrest ⊢
          refine List.chain'_cons.mpr ⟨?_, hrest⟩
          exact clampTimes_ok_contig bf b obj (hnn bf (by simp)) (hnn b (by simp)) hodn
            (List.chain'_cons.mp hch).1 he hbe

/-- Chain-contiguity together with duration non-negativity of the channel
format at index `j`. -/
def ChanWFAt (cfs : List ChannelFormat) (j : Nat) : Prop :=
  ∀ cf, cfs[j]? = some cf →
    List.Chain' Contiguous cf.audioBlockFormats
    ∧ ∀ b ∈ cf.audioBlockFormats, DurNonneg b

theorem clampChannelAt_wf (obj : ObjSpan) (hodn : 0 ≤ obj.duration)
    (cfs : List ChannelFormat) (i j : Nat)
    (hok : (clampChannelAt obj cfs i).error = none)
    (h : ChanWFAt cfs j) : ChanWFAt (clampChannelAt obj cfs i).value j := by
  rcases hcf : cfs[i]? with _ | cf
  · rw [clampChannelAt_none obj cfs i hcf]
    exact h
  · have hlen : i < cfs.length := by
      by_contra hnot
      rw [List.getElem?_eq_none (Nat.le_of_not_lt hnot)] at hcf
      exact absurd hcf (by simp)
    rw [clampChannelAt_some obj cfs i cf hcf] at hok ⊢
    dsimp only at hok ⊢
    intro cf2 hcf2
    by_cases hij : i = j
    · subst hij
      rw [List.getElem?_set_self hlen] at hcf2
      obtain rfl : (⟨(clampBlocks obj cf.audioBlockFormats).value⟩ : ChannelFormat) = cf2 := by
        simpa using hcf2
      obtain ⟨hch, hnn⟩ := h cf hcf
      refine ⟨clampBlocks_chain obj hodn cf.audioBlockFormats hnn hch hok, ?_⟩
      intro b2 hb2
      obtain ⟨b, hb, h1, h2⟩ := clampBlocks_ok_mem obj cf.audioBlockFormats hok b2 hb2
      rw [← h2]
      exact clampTimes_ok_durNonneg b obj (hnn b hb) h1
    · rw [List.getElem?_set_ne hij] at hcf2
      exact h cf2 hcf2

theorem processChans_wf (obj : ObjSpan) (hodn : 0 ≤ obj.duration) (js : List Nat) :
    ∀ cfs j, (processChans obj cfs js).error = none → ChanWFAt cfs j →
      ChanWFAt (processChans obj cfs js).value j := by
  induction js with
  | nil =>
      intro cfs j _ h
      rw [processChans_nil]
      exact h
  | cons i rest ih =>
      intro cfs j hok h
      rcases he : (clampChannelAt obj cfs i).error with _ | e
      · rw [processChans_cons_ok obj cfs i rest he] at hok ⊢
        dsimp only at hok ⊢
        exact ih _ j hok (clampChannelAt_wf obj hodn cfs i j he h)
      · rw [processChans_cons_err obj cfs i rest e he] at hok
        exact absurd hok (by simp)

theorem processObject_wf (cfs : List ChannelFormat) (o : AudioObject) (chans : List Nat)
    (j : Nat) (hobj : ∀ dd, o.duration = some dd → 0 ≤ dd)
    (hok : (processObject cfs o chans).error = none)
    (h : ChanWFAt cfs j) : ChanWFAt (processObject cfs o chans).value j := by
  rcases hs : o.start with _ | s
  · rw [processObject_unset cfs o chans (Or.inl hs)]
    exact h
  rcases hdu : o.duration with _ | d
  · rw [processObject_unset cfs o chans (Or.inr hdu)]
    exact h
  rw [processObject_set cfs o chans s d hs hdu] at hok ⊢
  exact processChans_wf ⟨o.id, s, d⟩ (hobj d hdu) chans cfs j hok h

theorem processObjects_wf (sel : Nat → List Nat) (objs : List AudioObject)
    (hobjs : ∀ o ∈ objs, ∀ dd, o.duration = some dd → 0 ≤ dd) :
    ∀ i0 cfs j, (processObjects sel objs i0 cfs).error = none → ChanWFAt cfs j →
      ChanWFAt (processObjects sel objs i0 cfs).value j := by
  induction objs with
  | nil =>
      intro i0 cfs j _ h
      rw [processObjects_nil]
      exact h
  | cons o rest ih =>
      intro i0 cfs j hok h
      rcases he : (processObject cfs o (sel i0)).error with _ | e
      · rw [processObjects_cons_ok sel o rest i0 cfs he] at hok ⊢
        dsimp only at hok ⊢
        refine ih (fun x hx => hobjs x (by simp [hx])) (i0 + 1) _ j hok ?_
        exact processObject_wf cfs o (sel i0) j (hobjs o (by simp)) he h
      · rw [processObjects_cons_err sel o rest i0 cfs e he] at hok
        exact absurd hok (by simp)

/-! ### Establishment of the full clamped state (towards C7) -/

theorem clampChannelAt_clamped (obj : ObjSpan) (cfs : List ChannelFormat) (i : Nat)
    (hok : (clampChannelAt obj cfs i).error = none) :
    ChanPredAt (ClampedFor obj.start obj.duration) (clampChannelAt obj cfs i).value i := by
  rcases hcf : cfs[i]? with _ | cf
  · rw [clampChannelAt_none obj cfs i hcf]
    intro cf2 hcf2
    rw [hcf] at hcf2
    exact absurd hcf2 (by simp)
  · have hlen : i < cfs.length := by
      by_contra hnot
      rw [List.getElem?_eq_none (Nat.le_of_not_lt hnot)] at hcf
      exact absurd hcf (by simp)
    rw [clampChannelAt_some obj cfs i cf hcf] at hok ⊢
    dsimp only at hok ⊢
    intro cf2 hcf2 b2 hb2
    rw [List.getElem?_set_self hlen] at hcf2
    obtain rfl : (⟨(clampBlocks obj cf.audioBlockFormats).value⟩ : ChannelFormat) = cf2 := by
      simpa using hcf2
    obtain ⟨b, _, h1, h2⟩ := clampBlocks_ok_mem obj cf.audioBlockFormats hok b2 hb2
    rw [← h2]
    exact clampTimes_ok_clampedFor_self b obj h1

theorem processChans_clamped (obj : ObjSpan) (js : List Nat) :
    ∀ cfs, (processChans obj cfs js).error = none →
      ∀ j ∈ js, ChanPredAt (ClampedFor obj.start obj.duration)
        (processChans obj cfs js).value j := by
  induction js with
  | nil =>
      intro cfs _ j hj
      exact absurd hj (by simp)
  | cons i rest ih =>
      intro cfs hok j hj
      rcases he : (clampChannelAt obj cfs i).error with _ | e
      · rw [processChans_cons_ok obj cfs i rest he] at hok ⊢
        dsimp only at hok ⊢
        rcases List.mem_cons.mp hj with rfl | hmem
        · exact processChans_stable _ (stable_clampedFor obj.start obj.duration) obj rest _
            j hok (clampChannelAt_clamped obj cfs j he)
        · exact ih _ hok j hmem
      · rw [processChans_cons_err obj cfs i rest e he] at hok
        exact absurd hok (by simp)

theorem processObject_clamped (cfs : List ChannelFormat) (o : AudioObject)
    (chans : List Nat) (s d : Int) (hs : o.start = some s) (hd : o.duration = some d)
    (hok : (processObject cfs o chans).error = none) :
    ∀ j ∈ chans, ChanPredAt (ClampedFor s d) (processObject cfs o chans).value j := by
  rw [processObject_set cfs o chans s d hs hd] at hok ⊢
  exact processChans_clamped ⟨o.id, s, d⟩ chans cfs hok

theorem processObjects_clamped (sel : Nat → List Nat) (objs : List AudioObject) :
    ∀ i0 cfs, (processObjects sel objs i0 cfs).error = none →
      ∀ k obj s d, objs[k]? = some obj → obj.start = some s → obj.duration = some d →
        ∀ j ∈ sel (i0 + k),
          ChanPredAt (ClampedFor s d) (processObjects sel objs i0 cfs).value j := by
  induction objs with
  | nil =>
      intro i0 cfs _ k obj s d hk
      exact absurd hk (by simp)
  | cons o rest ih =>
      intro i0 cfs hok k obj s d hk hs hd j hj
      rcases he : (processObject cfs o (sel i0)).error with _ | e
      · rw [processObjects_cons_ok sel o rest i0 cfs he] at hok ⊢
        dsimp only at hok ⊢
        rcases k with _ | k
        · obtain rfl : o = obj := by simpa using hk
          refine processObjects_stable _ (stable_clampedFor s d) sel rest (i0 + 1) _ j hok ?_
          exact processObject_clamped cfs o (sel i0) s d hs hd he j (by simpa using hj)
        · have hk2 : rest[k]? = some obj := by simpa using hk
          have hj2 : j ∈ sel (i0 + 1 + k) := by
            have harith : i0 + (k + 1) = i0 + 1 + k := by omega
            rwa [harith] at hj
          exact ih (i0 + 1) _ hok k obj s d hk2 hs hd j hj2
      · rw [processObjects_cons_err sel o rest i0 cfs e he] at hok
        exact absurd hok (by simp)

/-! ### Second-run identity lemmas (towards C7) -/

theorem listSet_self {α : Type} (l : List α) :
    ∀ (i : Nat) (x : α), l[i]? = some x → l.set i x = l := by
  induction l with
  | nil => intro i x _; rfl
  | cons a t ih =>
      intro i x h
      cases i with
      | zero =>
          obtain rfl : a = x := by simpa using h
          rfl
      | succ n =>
          simp only [List.set]
          rw [ih n x (by simpa using h)]

theorem fixDurationPair_id_of_contig (a b : BlockFormat) (h : Contiguous a b) :
    fixDurationPair a b = (a, []) := by
  by_cases hft : pairFullyTimed a b
  · obtain ⟨⟨⟨h1, h2⟩, h3⟩, h4⟩ :
        ((a.rtime.isSome ∧ a.duration.isSome) ∧ b.rtime.isSome) ∧ b.duration.isSome := by
      simpa [pairFullyTimed, Bool.and_eq_true] using hft
    obtain ⟨art, ha⟩ := Option.isSome_iff_exists.mp h1
    obtain ⟨ad, had⟩ := Option.isSome_iff_exists.mp h2
    obtain ⟨brt, hb⟩ := Option.isSome_iff_exists.mp h3
    obtain ⟨bd, hbd⟩ := Option.isSome_iff_exists.mp h4
    have hco : brt = art + ad := by
      have hc := h hft
      rw [hb] at hc
      unfold rtimeD durationD at hc
      rw [ha, had] at hc
      simpa using hc
    simp only [fixDurationPair, ha, had, hb, hbd]
    rw [if_neg (by omega : ¬ad ≠ brt - art)]
  · exact fixDurationPair_skip a b (by simpa using hft)

theorem fixDurationsList_id (bs : List BlockFormat) (h : List.Chain' Contiguous bs) :
    fixDurationsList bs = (bs, []) := by
  induction bs with
  | nil => rfl
  | cons a tail ih =>
      cases tail with
      | nil => rfl
      | cons b rest =>
          have heq : fixDurationsList (a :: b :: rest)
              = ((fixDurationPair a b).1 :: (fixDurationsList (b :: rest)).1,
                 (fixDurationPair a b).2 ++ (fixDurationsList (b :: rest)).2) := rfl
          rw [heq, fixDurationPair_id_of_contig a b (List.chain'_cons.mp h).1,
            ih (List.chain'_cons.mp h).2]
          rfl

theorem mapFixDur_id (cfs : List ChannelFormat)
    (h : ∀ cf ∈ cfs, List.Chain' Contiguous cf.audioBlockFormats) :
    cfs.map (fun cf => fixDurationsList cf.audioBlockFormats)
      = cfs.map (fun cf => (cf.audioBlockFormats, ([] : List Diag))) := by
  induction cfs with
  | nil => rfl
  | cons c t ih =>
      simp only [List.map_cons]
      rw [fixDurationsList_id c.audioBlockFormats (h c (by simp)),
        ih (fun x hx => h x (by simp [hx]))]

theorem map_mk_blocks (cfs : List ChannelFormat) :
    (cfs.map fun cf => (⟨cf.audioBlockFormats⟩ : ChannelFormat)) = cfs := by
  induction cfs with
  | nil => rfl
  | cons c t ih =>
      simp only [List.map_cons, ih]

theorem mapPair_mk (cfs : List ChannelFormat) :
    ((cfs.map fun cf => (cf.audioBlockFormats, ([] : List Diag))).map
        fun r => (⟨r.1⟩ : ChannelFormat)) = cfs := by
  induction cfs with
  | nil => rfl
  | cons c t ih =>
      simp only [List.map_cons, ih]

theorem mapPair_diag (cfs : List ChannelFormat) :
    (((cfs.map fun cf => (cf.audioBlockFormats, ([] : List Diag))).map
        fun r => r.2).flatten) = ([] : List Diag) := by
  induction cfs with
  | nil => rfl
  | cons c t ih =>
      simp [ih]

theorem flatten_map_nil {α : Type} (l : List α) :
    ((l.map fun _ => ([] : List Diag)).flatten) = [] := by
  induction l with
  | nil => rfl
  | cons c t ih => simp [ih]

/-- A scene whose channels are all contiguous is a fixed point of the
Duration Reconciler, with no diagnostics. -/
theorem fix_blockFormat_durations_id (adm : ADM)
    (h : ∀ cf ∈ adm.audioChannelFormats, List.Chain' Contiguous cf.audioBlockFormats) :
    fix_blockFormat_durations adm = (adm, []) := by
  unfold fix_blockFormat_durations
  rw [mapFixDur_id adm.audioChannelFormats h]
  dsimp only
  rw [mapPair_mk, mapPair_diag]

theorem fixInterpLenBlock_id (bf : BlockFormat) (h : ILBounded bf) :
    fixInterpLenBlock bf = (bf, []) := by
  unfold fixInterpLenBlock
  rcases hrt : bf.rtime with _ | rt <;> rcases hdu : bf.duration with _ | dur <;>
    try dsimp only
  rcases hil : interpLength bf with _ | il <;> try dsimp only
  rw [if_neg (not_lt.mpr (h (by simp [hrt]) dur il hdu hil))]

theorem mapFixInterp_id (cfs : List ChannelFormat)
    (h : ∀ cf ∈ cfs, ∀ bf ∈ cf.audioBlockFormats, ILBounded bf) :
    cfs.map (fun cf =>
        (cf.audioBlockFormats.map fun bf => (fixInterpLenBlock bf).1,
         (cf.audioBlockFormats.map fun bf => (fixInterpLenBlock bf).2).flatten))
      = cfs.map (fun cf => (cf.audioBlockFormats, ([] : List Diag))) := by
  induction cfs with
  | nil => rfl
  | cons c t ih =>
      simp only [List.map_cons]
      rw [ih (fun x hx => h x (by simp [hx]))]
      have h1 : (c.audioBlockFormats.map fun bf => (fixInterpLenBlock bf).1)
          = c.audioBlockFormats := by
        have : ∀ bs : List BlockFormat, (∀ bf ∈ bs, ILBounded bf) →
            (bs.map fun bf => (fixInterpLenBlock bf).1) = bs := by
          intro bs
          induction bs with
          | nil => intro _; rfl
          | cons b t2 ih2 =>
              intro hb
              simp only [List.map_cons]
              rw [fixInterpLenBlock_id b (hb b (by simp)), ih2 (fun x hx => hb x (by simp [hx]))]
        exact this c.audioBlockFormats (h c (by simp))
      have h2 : ((c.audioBlockFormats.map fun bf => (fixInterpLenBlock bf).2).flatten)
          = ([] : List Diag) := by
        have : ∀ bs : List BlockFormat, (∀ bf ∈ bs, ILBounded bf) →
            ((bs.map fun bf => (fixInterpLenBlock bf).2).flatten) = ([] : List Diag) := by
          intro bs
          induction bs with
          | nil => intro _; rfl
          | cons b t2 ih2 =>
              intro hb
              simp only [List.map_cons, List.flatten_cons]
              rw [fixInterpLenBlock_id b (hb b (by simp)), ih2 (fun x hx => hb x (by simp [hx]))]
              rfl
        exact this c.audioBlockFormats (h c (by simp))
      rw [h1, h2]

/-- A scene with interpolation boundedness everywhere is a fixed point of
the Interpolation Clamp, with no diagnostics. -/
theorem fix_blockFormat_interpolationLengths_id (adm : ADM)
    (h : ∀ cf ∈ adm.audioChannelFormats, ∀ bf ∈ cf.audioBlockFormats, ILBounded bf) :
    fix_blockFormat_interpolationLengths adm = (adm, []) := by
  unfold fix_blockFormat_interpolationLengths
  rw [mapFixInterp_id adm.audioChannelFormats h]
  dsimp only
  rw [mapPair_mk, mapPair_diag]

theorem clampInterpLengthOnly_id (bf : BlockFormat) (obj : ObjSpan)
    (hpre : ∀ il, interpLength bf = some il → il ≤ obj.duration) :
    clampInterpLengthOnly bf obj = (bf, []) := by
  unfold clampInterpLengthOnly
  rcases hil : interpLength bf with _ | il <;> try dsimp only
  rw [if_neg (not_lt.mpr (hpre il hil))]

/-- A block already `ClampedFor` the object's span is left untouched by
`_clamp_blockFormat_times`, with no diagnostics and no error. -/
theorem clampTimes_id (bf : BlockFormat) (obj : ObjSpan)
    (h : ClampedFor obj.start obj.duration bf) :
    clampTimes bf obj = ⟨bf, [], none⟩ := by
  rcases hrt : bf.rtime with _ | rt
  · rw [clampTimes_unset bf obj (Or.inl hrt),
      clampInterpLengthOnly_id bf obj (h.2 (Or.inl hrt))]
  · rcases hdu : bf.duration with _ | dur
    · rw [clampTimes_unset bf obj (Or.inr hdu),
        clampInterpLengthOnly_id bf obj (h.2 (Or.inr hdu))]
    · have hc := h.1 (by simp [hrt]) (by simp [hdu])
      unfold rtimeD durationD at hc
      rw [hrt, hdu] at hc
      simp only [Option.getD_some] at hc
      exact clampTimes_noop bf obj rt dur hrt hdu hc.1 hc.2

theorem clampBlocks_id (obj : ObjSpan) (bs : List BlockFormat)
    (h : ∀ b ∈ bs, ClampedFor obj.start obj.duration b) :
    clampBlocks obj bs = ⟨bs, [], none⟩ := by
  induction bs with
  | nil => rfl
  | cons bf rest ih =>
      have h1 := clampTimes_id bf obj (h bf (by simp))
      rw [clampBlocks_cons_ok obj bf rest (by rw [h1]), h1,
        ih (fun x hx => h x (by simp [hx]))]
      rfl

theorem clampChannelAt_id (obj : ObjSpan) (cfs : List ChannelFormat) (i : Nat)
    (h : ChanPredAt (ClampedFor obj.start obj.duration) cfs i) :
    clampChannelAt obj cfs i = ⟨cfs, [], none⟩ := by
  rcases hcf : cfs[i]? with _ | cf
  · exact clampChannelAt_none obj cfs i hcf
  · rw [clampChannelAt_some obj cfs i cf hcf,
      clampBlocks_id obj cf.audioBlockFormats (h cf hcf)]
    show (⟨cfs.set i cf, [], none⟩ : PassResult (List ChannelFormat)) = ⟨cfs, [], none⟩
    rw [listSet_self cfs i cf hcf]

theorem processChans_id (obj : ObjSpan) (js : List Nat) (cfs : List ChannelFormat)
    (h : ∀ j ∈ js, ChanPredAt (ClampedFor obj.start obj.duration) cfs j) :
    processChans obj cfs js = ⟨cfs, [], none⟩ := by
  induction js with
  | nil => rfl
  | cons i rest ih =>
      have h1 := clampChannelAt_id obj cfs i (h i (by simp))
      rw [processChans_cons_ok obj cfs i rest (by rw [h1]), h1,
        ih (fun j hj => h j (by simp [hj]))]
      rfl

theorem processObject_id (cfs : List ChannelFormat) (o : AudioObject) (chans : List Nat)
    (h : ∀ s d, o.start = some s → o.duration = some d →
      ∀ j ∈ chans, ChanPredAt (ClampedFor s d) cfs j) :
    processObject cfs o chans = ⟨cfs, [], none⟩ := by
  rcases hs : o.start with _ | s
  · exact processObject_unset cfs o chans (Or.inl hs)
  rcases hdu : o.duration with _ | d
  · exact processObject_unset cfs o chans (Or.inr hdu)
  rw [processObject_set cfs o chans s d hs hdu]
  exact processChans_id ⟨o.id, s, d⟩ chans cfs (h s d hs hdu)

theorem processObjects_id (sel : Nat → List Nat) (objs : List AudioObject) :
    ∀ i0 cfs,
      (∀ k o s d, objs[k]? = some o → o.start = some s → o.duration = some d →
        ∀ j ∈ sel (i0 + k), ChanPredAt (ClampedFor s d) cfs j) →
      processObjects sel objs i0 cfs = ⟨cfs, [], none⟩ := by
  induction objs with
  | nil => intro i0 cfs _; rfl
  | cons o rest ih =>
      intro i0 cfs h
      have h1 : processObject cfs o (sel i0) = ⟨cfs, [], none⟩ := by
        refine processObject_id cfs o (sel i0) ?_
        intro s d hs hd j hj
        exact h 0 o s d (by simp) hs hd j hj
      rw [processObjects_cons_ok sel o rest i0 cfs (by rw [h1]), h1]
      have h2 : processObjects sel rest (i0 + 1) cfs = ⟨cfs, [], none⟩ := by
        refine ih (i0 + 1) cfs ?_
        intro k o2 s d hk hs hd j hj
        refine h (k + 1) o2 s d (by simpa using hk) hs hd j ?_
        have harith : i0 + (k + 1) = i0 + 1 + k := by omega
        rwa [harith]
      rw [h2]
      rfl

/-- A scene in the fully clamped state is a fixed point of the
Object-Containment Clamper. -/
theorem fix_blockFormat_times_for_audioObjects_id (sel : Nat → List Nat) (adm : ADM)
    (h : ∀ k o s d, adm.audioObjects[k]? = some o → o.start = some s →
      o.duration = some d → ∀ j ∈ sel k,
        ChanPredAt (ClampedFor s d) adm.audioChannelFormats j) :
    fix_blockFormat_times_for_audioObjects sel adm = ⟨adm, [], none⟩ := by
  unfold fix_blockFormat_times_for_audioObjects
  rw [processObjects_id sel adm.audioObjects 0 adm.audioChannelFormats
    (fun k o s d hk hs hd j hj => h k o s d hk hs hd j (by simpa using hj))]

theorem fixTimings_def (sel : Nat → List Nat) (adm : ADM) :
    fix_blockFormat_timings sel adm =
      ⟨(fix_blockFormat_times_for_audioObjects sel
          (fix_blockFormat_interpolationLengths (fix_blockFormat_durations adm).1).1).value,
       (fix_blockFormat_durations adm).2
         ++ (fix_blockFormat_interpolationLengths (fix_blockFormat_durations adm).1).2
         ++ (fix_blockFormat_times_for_audioObjects sel
              (fix_blockFormat_interpolationLengths (fix_blockFormat_durations adm).1).1).diags,
       (fix_blockFormat_times_for_audioObjects sel
          (fix_blockFormat_interpolationLengths (fix_blockFormat_durations adm).1).1).error⟩ :=
  rfl

/-- C7 (amended): on a scene whose defined block durations and object
durations are non-negative and whose fully-timed adjacent block pairs have
non-decreasing rtimes, if the pipeline completes without a hard error then
a second run of the pipeline on the result is the identity: no diagnostics,
no error, and no field changes at all. -/
theorem c7_idempotent_amended (sel : Nat → List Nat) (adm : ADM)
    (hbd : ∀ cf ∈ adm.audioChannelFormats, ∀ bf ∈ cf.audioBlockFormats, DurNonneg bf)
    (hmono : ∀ cf ∈ adm.audioChannelFormats, List.Chain' RtMono cf.audioBlockFormats)
    (hod : ∀ o ∈ adm.audioObjects, ∀ dd, o.duration = some dd → 0 ≤ dd)
    (hok : (fix_blockFormat_timings sel adm).error = none) :
    fix_blockFormat_timings sel (fix_blockFormat_timings sel adm).value
      = ⟨(fix_blockFormat_timings sel adm).value, [], none⟩ := by
  have hok3 : (processObjects sel
      (fix_blockFormat_interpolationLengths (fix_blockFormat_durations adm).1).1.audioObjects
      0
      (fix_blockFormat_interpolationLengths
        (fix_blockFormat_durations adm).1).1.audioChannelFormats).error = none := hok
  have hchan2 : (fix_blockFormat_interpolationLengths
        (fix_blockFormat_durations adm).1).1.audioChannelFormats
      = adm.audioChannelFormats.map (fun cf =>
          ⟨(blocksAfterDur cf.audioBlockFormats).map fun bf => (fixInterpLenBlock bf).1⟩) := by
    rw [fixInterpLens_channels, fixDurations_channels, List.map_map]
    rfl
  have hwf2 : ∀ j, ChanWFAt (fix_blockFormat_interpolationLengths
      (fix_blockFormat_durations adm).1).1.audioChannelFormats j := by
    intro j cf hcf
    rw [hchan2, List.getElem?_map] at hcf
    rcases hcf0 : adm.audioChannelFormats[j]? with _ | cf0 <;> rw [hcf0] at hcf
    · exact absurd hcf (by simp)
    · obtain rfl : (⟨(blocksAfterDur cf0.audioBlockFormats).map
          fun bf => (fixInterpLenBlock bf).1⟩ : ChannelFormat) = cf := by simpa using hcf
      have hmem : cf0 ∈ adm.audioChannelFormats := List.mem_iff_getElem?.mpr ⟨j, hcf0⟩
      constructor
      · rw [List.chain'_map]
        refine (blocksAfterDur_chain cf0.audioBlockFormats).imp ?_
        intro a b hab
        exact contiguous_of_eq a _ b _ (fixInterpLenBlock_rtime a)
          (fixInterpLenBlock_duration a) (fixInterpLenBlock_rtime b)
          (fixInterpLenBlock_duration b) hab
      · intro b2 hb2
        obtain ⟨b1, hb1, rfl⟩ := List.mem_map.mp hb2
        intro dd hdd
        rw [fixInterpLenBlock_duration] at hdd
        exact blocksAfterDur_nonneg cf0.audioBlockFormats (hmono cf0 hmem)
          (hbd cf0 hmem) b1 hb1 dd hdd
  have hil2 : ∀ j, ChanPredAt ILBounded (fix_blockFormat_interpolationLengths
      (fix_blockFormat_durations adm).1).1.audioChannelFormats j := by
    intro j cf hcf
    rw [hchan2, List.getElem?_map] at hcf
    rcases hcf0 : adm.audioChannelFormats[j]? with _ | cf0 <;> rw [hcf0] at hcf
    · exact absurd hcf (by simp)
    · obtain rfl : (⟨(blocksAfterDur cf0.audioBlockFormats).map
          fun bf => (fixInterpLenBlock bf).1⟩ : ChannelFormat) = cf := by simpa using hcf
      intro b2 hb2
      obtain ⟨b1, _, rfl⟩ := List.mem_map.mp hb2
      exact fun hs dur il hd hil => fixInterpLenBlock_bounded b1 dur il hs hd hil
  have hwf3 : ∀ j, ChanWFAt (processObjects sel
      (fix_blockFormat_interpolationLengths (fix_blockFormat_durations adm).1).1.audioObjects
      0 (fix_blockFormat_interpolationLengths
        (fix_blockFormat_durations adm).1).1.audioChannelFormats).value j :=
    fun j => processObjects_wf sel _ hod 0 _ j hok3 (hwf2 j)
  have hil3 : ∀ j, ChanPredAt ILBounded (processObjects sel
      (fix_blockFormat_interpolationLengths (fix_blockFormat_durations adm).1).1.audioObjects
      0 (fix_blockFormat_interpolationLengths
        (fix_blockFormat_durations adm).1).1.audioChannelFormats).value j :=
    fun j => processObjects_stable ILBounded stable_ilBounded sel _ 0 _ j hok3 (hil2 j)
  have hcl3 := processObjects_clamped sel
    (fix_blockFormat_interpolationLengths (fix_blockFormat_durations adm).1).1.audioObjects
    0 (fix_blockFormat_interpolationLengths
      (fix_blockFormat_durations adm).1).1.audioChannelFormats hok3
  have e1 : fix_blockFormat_durations (fix_blockFormat_timings sel adm).value
      = ((fix_blockFormat_timings sel adm).value, []) := by
    refine fix_blockFormat_durations_id _ ?_
    intro cf hcf
    obtain ⟨j, hj⟩ := List.mem_iff_getElem?.mp hcf
    exact (hwf3 j cf hj).1
  have e2 : fix_blockFormat_interpolationLengths (fix_blockFormat_timings sel adm).value
      = ((fix_blockFormat_timings sel adm).value, []) := by
    refine fix_blockFormat_interpolationLengths_id _ ?_
    intro cf hcf bf hbf
    obtain ⟨j, hj⟩ := List.mem_iff_getElem?.mp hcf
    exact hil3 j cf hj bf hbf
  have e3 : fix_blockFormat_times_for_audioObjects sel
        (fix_blockFormat_timings sel adm).value
      = ⟨(fix_blockFormat_timings sel adm).value, [], none⟩ := by
    refine fix_blockFormat_times_for_audioObjects_id sel _ ?_
    intro k o s d hk hs hd j hj
    exact hcl3 k o s d hk hs hd j (by simpa using hj)
  rw [fixTimings_def sel (fix_blockFormat_timings sel adm).value, e1]
  dsimp only
  rw [e2]
  dsimp only
  rw [e3]
  rfl

instance (bf : BlockFormat) : Decidable (DurNonneg bf) :=
  match h : bf.duration with
  | some dd =>
      if h0 : 0 ≤ dd then
        isTrue (fun x hx => by
          rw [h] at hx
          obtain rfl : dd = x := by simpa using hx
          exact h0)
      else isFalse (fun hc => h0 (hc dd h))
  | none =>
      isTrue (fun x hx => by
        rw [h] at hx
        exact absurd hx (by simp))

def c7sel : Nat → List Nat := fun _ => [0]
def c7cBlockA : BlockFormat := ⟨1, some 0, some 10, false, ⟨false, none⟩⟩
def c7cBlockB : BlockFormat := ⟨2, some 10, some 5, false, ⟨false, none⟩⟩
def c7cBlockC : BlockFormat := ⟨3, some 7, some 1, false, ⟨false, none⟩⟩
def c7cADM : ADM := ⟨[⟨[c7cBlockA, c7cBlockB, c7cBlockC]⟩], [⟨50, some 0, some 9⟩]⟩

/-- Counterexample to C7 as stated: on this scene (one channel with blocks
(0,10), (10,5), (7,1), one object spanning [0,9) selecting it) the first
pipeline run completes without error, yet the second run emits diagnostics
(the first run's end clamp shortened block 1 to duration 9, while block 2
still starts at rtime 10, so the second run's Duration Reconciler fires
again). -/
theorem c7_counterexample :
    (fix_blockFormat_timings c7sel c7cADM).error = none
    ∧ (fix_blockFormat_timings c7sel
        (fix_blockFormat_timings c7sel c7cADM).value).diags ≠ [] := by
  decide

def c7wBlockA : BlockFormat := ⟨1, some 0, some 3, false, ⟨false, none⟩⟩
def c7wBlockB : BlockFormat := ⟨2, some 5, some 2, false, ⟨false, none⟩⟩
def c7wADM : ADM := ⟨[⟨[c7wBlockA, c7wBlockB]⟩], [⟨50, some 0, some 9⟩]⟩

/-- Witness for the amended C7 at a concrete scene with non-negative
durations and monotone rtimes. -/
theorem c7_witness :
    fix_blockFormat_timings c7sel (fix_blockFormat_timings c7sel c7wADM).value
      = ⟨(fix_blockFormat_timings c7sel c7wADM).value, [], none⟩ := by
  refine c7_idempotent_amended c7sel c7wADM (by decide) ?_ ?_ (by decide)
  · intro cf hcf
    obtain rfl : cf = ChannelFormat.mk [c7wBlockA, c7wBlockB] := by simpa [c7wADM] using hcf
    refine List.chain'_cons.mpr ⟨by decide, ?_⟩
    exact List.chain'_singleton c7wBlockB
  · intro o ho dd hdd
    obtain rfl : o = (⟨50, some 0, some 9⟩ : AudioObject) := by simpa [c7wADM] using ho
    obtain rfl : (9 : Int) = dd := by simpa using hdd
    norm_num
